import Mathlib

/-!
Shallow embedding of the zoom-bak recording backup pipeline.

Strings are modelled as lists of characters (`Str`).  The Python standard
library helpers the code relies on (`urllib.parse.urlparse`, `parse_qs`,
`urlencode`, `quote_plus`, `unquote_plus`, `str.split`, `in`) are embedded
faithfully from their CPython semantics with default arguments, since the
repository calls them with defaults.  Database tables are modelled as lists
of rows, with the conflict behaviour dictated by the schema that
`src/database/setup.py` actually creates.
-/

namespace ZoomBak

/-- Strings are modelled as lists of characters. -/
abbrev Str := List Char

/-- Python `s.split(sep)` for a one-character separator: splits at every
occurrence, keeping empty pieces (`"".split(sep) == [""]`). -/
def splitOnChar (sep : Char) : Str → List Str
  | [] => [[]]
  | c :: rest =>
    match splitOnChar sep rest with
    | [] => if c = sep then [[], []] else [[c]]
    | h :: t => if c = sep then [] :: h :: t else (c :: h) :: t

/-- Python `s.split(sep, 1)` for a one-character separator: `some (a, b)`
with `s = a ++ sep :: b` at the first occurrence, `none` if absent. -/
def splitFirstChar (sep : Char) : Str → Option (Str × Str)
  | [] => none
  | c :: rest =>
    if c = sep then some ([], rest)
    else
      match splitFirstChar sep rest with
      | none => none
      | some (a, b) => some (c :: a, b)

/-- Python `pat in s` substring test. -/
def containsSub (pat : Str) : Str → Bool
  | [] => pat.isEmpty
  | c :: rest => pat.isPrefixOf (c :: rest) || containsSub pat rest

/-- Characters `urllib.parse.quote` never escapes: ASCII alphanumerics and
underscore, dot, dash, tilde. -/
def alwaysSafe (c : Char) : Bool :=
  c.isAlphanum || c == '_' || c == '.' || c == '-' || c == '~'

/-- Uppercase hexadecimal digit for a value below 16. -/
def hexDigitUpper (n : Nat) : Char :=
  if n < 10 then Char.ofNat (48 + n) else Char.ofNat (55 + n)

/-- UTF-8 encoding of one character, as a list of byte values. -/
def utf8Bytes (c : Char) : List Nat :=
  let n := c.toNat
  if n < 0x80 then [n]
  else if n < 0x800 then [0xC0 + n / 0x40, 0x80 + n % 0x40]
  else if n < 0x10000 then
    [0xE0 + n / 0x1000, 0x80 + n / 0x40 % 0x40, 0x80 + n % 0x40]
  else
    [0xF0 + n / 0x40000, 0x80 + n / 0x1000 % 0x40, 0x80 + n / 0x40 % 0x40,
      0x80 + n % 0x40]

/-- `urllib.parse.quote_plus` on one character: space becomes a plus sign,
safe characters pass through, everything else is percent-encoded per
UTF-8 byte with uppercase hex digits. -/
def quotePlusChar (c : Char) : Str :=
  if c = ' ' then ['+']
  else if alwaysSafe c then [c]
  else (utf8Bytes c).flatMap (fun b => ['%', hexDigitUpper (b / 16), hexDigitUpper (b % 16)])

/-- `urllib.parse.quote_plus` with default arguments. -/
def quotePlus (s : Str) : Str := s.flatMap quotePlusChar

/-- Value of a hexadecimal digit character (either case), if it is one. -/
def hexVal (c : Char) : Option Nat :=
  if '0' ≤ c ∧ c ≤ '9' then some (c.toNat - 48)
  else if 'A' ≤ c ∧ c ≤ 'F' then some (c.toNat - 55)
  else if 'a' ≤ c ∧ c ≤ 'f' then some (c.toNat - 87)
  else none

/-- The Unicode replacement character, used for undecodable byte runs. -/
def replChar : Char := Char.ofNat 0xFFFD

/-- Payload of a UTF-8 continuation byte, if the byte is one. -/
def contVal (b : Nat) : Option Nat :=
  if 0x80 ≤ b ∧ b < 0xC0 then some (b % 0x40) else none

/-- Decode a byte list as UTF-8; invalid sequences yield the replacement
character (CPython decodes percent runs with errors="replace").  The fuel
argument only bounds the recursion depth; every step consumes at least one
byte, so fuel equal to the list length (supplied by `utf8Decode`) is enough. -/
def utf8DecodeAux : Nat → List Nat → Str
  | _, [] => []
  | 0, _ => []
  | fuel + 1, b :: rest =>
    if b < 0x80 then Char.ofNat b :: utf8DecodeAux fuel rest
    else if b < 0xC2 then replChar :: utf8DecodeAux fuel rest
    else if b < 0xE0 then
      match rest with
      | b1 :: rest1 =>
        match contVal b1 with
        | some v1 => Char.ofNat ((b - 0xC0) * 0x40 + v1) :: utf8DecodeAux fuel rest1
        | none => replChar :: utf8DecodeAux fuel rest
      | [] => [replChar]
    else if b < 0xF0 then
      match rest with
      | b1 :: b2 :: rest2 =>
        match contVal b1, contVal b2 with
        | some v1, some v2 =>
          let n := (b - 0xE0) * 0x1000 + v1 * 0x40 + v2
          if n < 0x800 ∨ (0xD800 ≤ n ∧ n < 0xE000) then replChar :: utf8DecodeAux fuel rest
          else Char.ofNat n :: utf8DecodeAux fuel rest2
        | _, _ => replChar :: utf8DecodeAux fuel rest
      | _ => replChar :: utf8DecodeAux fuel rest
    else if b < 0xF5 then
      match rest with
      | b1 :: b2 :: b3 :: rest3 =>
        match contVal b1, contVal b2, contVal b3 with
        | some v1, some v2, some v3 =>
          let n := (b - 0xF0) * 0x40000 + v1 * 0x1000 + v2 * 0x40 + v3
          if n < 0x10000 ∨ 0x110000 ≤ n then replChar :: utf8DecodeAux fuel rest
          else Char.ofNat n :: utf8DecodeAux fuel rest3
        | _, _, _ => replChar :: utf8DecodeAux fuel rest
      | _ => replChar :: utf8DecodeAux fuel rest
    else replChar :: utf8DecodeAux fuel rest

/-- Decode a byte list as UTF-8 with replacement of invalid sequences. -/
def utf8Decode (l : List Nat) : Str := utf8DecodeAux l.length l

/-- Helper for `unquote`: the pieces after splitting on percent signs.
Each piece beginning with two hex digits contributes a byte; maximal runs
of consecutive bytes are decoded together, as CPython does. -/
def unquoteBits : List Str → List Nat → Str
  | [], pending => utf8Decode pending
  | bit :: rest, pending =>
    match bit with
    | h1 :: h2 :: tl =>
      match hexVal h1, hexVal h2 with
      | some a, some b =>
        if tl.isEmpty then unquoteBits rest (pending ++ [16 * a + b])
        else utf8Decode (pending ++ [16 * a + b]) ++ tl ++ unquoteBits rest []
      | _, _ => utf8Decode pending ++ '%' :: bit ++ unquoteBits rest []
    | _ => utf8Decode pending ++ '%' :: bit ++ unquoteBits rest []

/-- `urllib.parse.unquote` with default arguments (UTF-8, errors="replace"). -/
def unquote (s : Str) : Str :=
  match splitOnChar '%' s with
  | [] => s
  | first :: rest => first ++ unquoteBits rest []

/-- `urllib.parse.unquote_plus`: plus signs become spaces, then
percent-decoding. -/
def unquotePlus (s : Str) : Str :=
  unquote (s.map (fun c => if c = '+' then ' ' else c))

/-- `urllib.parse.parse_qsl` with default arguments: fields split on the
ampersand, empty fields skipped, fields without an equals sign skipped,
fields with an empty value skipped (keep_blank_values=False), names and
values unquoted. -/
def parseQsl (qs : Str) : List (Str × Str) :=
  (splitOnChar '&' qs).foldr
    (fun nv acc =>
      if nv.isEmpty then acc
      else
        match splitFirstChar '=' nv with
        | none => acc
        | some (n, v) => if v.isEmpty then acc else (unquotePlus n, unquotePlus v) :: acc)
    []

/-- Append one value under a key in an insertion-ordered multi-dict, as
`parse_qs` accumulates its result dict. -/
def qsAppend (d : List (Str × List Str)) (k : Str) (v : Str) : List (Str × List Str) :=
  match d with
  | [] => [(k, [v])]
  | (k0, vs) :: rest => if k0 = k then (k0, vs ++ [v]) :: rest else (k0, vs) :: qsAppend rest k v

/-- `urllib.parse.parse_qs` with default arguments. -/
def parseQs (qs : Str) : List (Str × List Str) :=
  (parseQsl qs).foldl (fun d kv => qsAppend d kv.1 kv.2) []

/-- Python dict assignment `d[k] = vs`: replaces the value in place when the
key exists, otherwise appends the key at the end. -/
def dictSet (d : List (Str × List Str)) (k : Str) (vs : List Str) : List (Str × List Str) :=
  match d with
  | [] => [(k, vs)]
  | (k0, vs0) :: rest => if k0 = k then (k0, vs) :: rest else (k0, vs0) :: dictSet rest k vs

/-- Python `"&".join(fields)`. -/
def joinAmp : List Str → Str
  | [] => []
  | [x] => x
  | x :: y :: rest => x ++ '&' :: joinAmp (y :: rest)

/-- `urllib.parse.urlencode` with `doseq=True`: one `key=value` field per
value in each key's list, keys in dict order, quoted with `quote_plus`,
joined with ampersands. -/
def urlencodeDoseq (d : List (Str × List Str)) : Str :=
  joinAmp (d.flatMap (fun kv => kv.2.map (fun v => quotePlus kv.1 ++ '=' :: quotePlus v)))

/-- Query pairs joined as `k=v` fields with ampersands (what `urlencode`
produces when no quoting is needed). -/
def joinPairs (L : List (Str × Str)) : Str :=
  joinAmp (L.map (fun kv => kv.1 ++ '=' :: kv.2))

/-- Flatten an insertion-ordered multi-dict back to its pair sequence. -/
def flatPairs (d : List (Str × List Str)) : List (Str × Str) :=
  d.flatMap (fun kv => kv.2.map (fun v => (kv.1, v)))

/-- Every character of the string survives `quote_plus` unchanged. -/
def AllSafe (s : Str) : Prop := ∀ c ∈ s, alwaysSafe c = true

/-- A non-empty string of quote-safe characters (these exclude all URL
delimiters, percent signs and plus signs). -/
def SafeParam (s : Str) : Prop := s ≠ [] ∧ AllSafe s

instance (s : Str) : Decidable (AllSafe s) :=
  decidable_of_iff (∀ c ∈ s, alwaysSafe c = true) Iff.rfl

instance (s : Str) : Decidable (SafeParam s) :=
  decidable_of_iff (s ≠ [] ∧ AllSafe s) Iff.rfl

/-- The six components returned by `urllib.parse.urlparse`. -/
structure UrlComponents where
  scheme : Str
  netloc : Str
  path : Str
  params : Str
  query : Str
  fragment : Str
deriving DecidableEq, Repr

/-- Characters allowed in a URL scheme after the first letter. -/
def schemeChar (c : Char) : Bool :=
  c.isAlphanum || c == '+' || c == '-' || c == '.'

/-- Split off `scheme:` when the text before the first colon is a wellformed
scheme (leading letter, scheme characters); the scheme is lowercased. -/
def splitScheme (url : Str) : Str × Str :=
  match splitFirstChar ':' url with
  | none => ([], url)
  | some (before, after) =>
    match before with
    | [] => ([], url)
    | c :: cs =>
      if c.isAlpha && (c :: cs).all schemeChar then ((c :: cs).map Char.toLower, after)
      else ([], url)

/-- Consume the netloc: characters up to the next slash, question mark or
hash sign. -/
def takeNetloc : Str → Str × Str
  | [] => ([], [])
  | c :: rest =>
    if c = '/' ∨ c = '?' ∨ c = '#' then ([], c :: rest)
    else
      let (n, r) := takeNetloc rest
      (c :: n, r)

/-- Split off `//netloc` when the remainder begins with a double slash. -/
def splitNetloc : Str → Str × Str
  | '/' :: '/' :: rest => takeNetloc rest
  | url => ([], url)

/-- Parameter splitting of `urlparse`: the part of the last path segment
after a semicolon becomes the params component. -/
def splitParams (url : Str) : Str × Str :=
  if url.contains '/' then
    match splitFirstChar '/' url.reverse with
    | some (revSeg, revPre) =>
      match splitFirstChar ';' revSeg.reverse with
      | none => (url, [])
      | some (a, b) => (revPre.reverse ++ '/' :: a, b)
    | none => (url, [])
  else
    match splitFirstChar ';' url with
    | none => (url, [])
    | some (a, b) => (a, b)

/-- `urllib.parse.urlparse`: scheme, then `//netloc`, then the fragment
after the first hash sign, then the query after the first question mark,
then params off the last path segment. -/
def urlparseFull (url : Str) : UrlComponents :=
  let s1 := splitScheme url
  let s2 := splitNetloc s1.2
  let s3 :=
    match splitFirstChar '#' s2.2 with
    | none => (s2.2, ([] : Str))
    | some (a, b) => (a, b)
  let s4 :=
    match splitFirstChar '?' s3.1 with
    | none => (s3.1, ([] : Str))
    | some (a, b) => (a, b)
  let s5 := splitParams s4.1
  ⟨s1.1, s2.1, s5.1, s5.2, s4.2, s3.2⟩

/-- `urllib.parse.urlunparse`: reattach params with a semicolon, then
rebuild `scheme://netloc/path?query#fragment`, each piece only when
non-empty. -/
def urlunparse (u : UrlComponents) : Str :=
  let url0 := if u.params.isEmpty then u.path else u.path ++ ';' :: u.params
  let url1 :=
    if !u.netloc.isEmpty || url0.take 2 == ['/', '/'] then
      let url' := if !url0.isEmpty && url0.head? != some '/' then '/' :: url0 else url0
      '/' :: '/' :: (u.netloc ++ url')
    else url0
  let url2 := if !u.scheme.isEmpty then u.scheme ++ ':' :: url1 else url1
  let url3 := if !u.query.isEmpty then url2 ++ '?' :: u.query else url2
  if !u.fragment.isEmpty then url3 ++ '#' :: u.fragment else url3

/-- A wellformed, already-lowercased URL scheme. -/
def SchemeOk (s : Str) : Prop :=
  s ≠ [] ∧ (s.take 1).all Char.isAlpha = true ∧ s.all schemeChar = true ∧
    s.map Char.toLower = s

/-- A non-empty netloc free of the characters that end it. -/
def NetlocOk (s : Str) : Prop :=
  s ≠ [] ∧ ∀ c ∈ s, c ≠ '/' ∧ c ≠ '?' ∧ c ≠ '#'

/-- An absolute (or empty) path free of query, fragment and parameter
delimiters. -/
def PathOk (s : Str) : Prop :=
  (s = [] ∨ s.head? = some '/') ∧ ∀ c ∈ s, c ≠ '?' ∧ c ≠ '#' ∧ c ≠ ';'

instance (s : Str) : Decidable (SchemeOk s) :=
  decidable_of_iff
    (s ≠ [] ∧ (s.take 1).all Char.isAlpha = true ∧ s.all schemeChar = true ∧
      s.map Char.toLower = s) Iff.rfl

instance (s : Str) : Decidable (NetlocOk s) :=
  decidable_of_iff (s ≠ [] ∧ ∀ c ∈ s, c ≠ '/' ∧ c ≠ '?' ∧ c ≠ '#') Iff.rfl

instance (s : Str) : Decidable (PathOk s) :=
  decidable_of_iff
    ((s = [] ∨ s.head? = some '/') ∧ ∀ c ∈ s, c ≠ '?' ∧ c ≠ '#' ∧ c ≠ ';') Iff.rfl

/-- The fields of the meeting/webinar object that the pipeline reads
(`meeting_data` dictionaries); absent keys are `none`. -/
structure Meeting where
  id : Option Str := none
  uuid : Option Str := none
  topic : Option Str := none
  host_id : Option Str := none
  start_time : Option Str := none
  duration : Option Nat := none
  recording_play_passcode : Option Str := none
deriving DecidableEq, Repr

/-- `add_passcode_to_url` from `src/zoom_api/download.py`: when the meeting
data carries a truthy `recording_play_passcode`, parse the URL, set the
`pwd` query parameter to the passcode, re-encode the query and rebuild the
URL; otherwise return the URL unchanged. -/
def add_passcode_to_url (downloadUrl : Str) (meetingData : Meeting) : Str :=
  match meetingData.recording_play_passcode with
  | none => downloadUrl
  | some p =>
    if p.isEmpty then downloadUrl
    else
      let parsed := urlparseFull downloadUrl
      let queryParams := dictSet (parseQs parsed.query) "pwd".data [p]
      let newQuery := urlencodeDoseq queryParams
      urlunparse { parsed with query := newQuery }

/-- Python `s.lower()` restricted to ASCII, which is all the pipeline
compares (file types and extensions). -/
def lowerStr (s : Str) : Str := s.map Char.toLower

/-- The fields of a `file_info` dictionary that the pipeline reads; absent
keys are `none`. -/
structure FileInfo where
  id : Option Str := none
  file_type : Option Str := none
  file_extension : Option Str := none
  file_size : Option Nat := none
  recording_type : Option Str := none
  download_url : Str := []
  status : Option Str := none
deriving DecidableEq, Repr

/-- `get_file_extension` from `src/utils/file.py`.  The second argument is
the `config["file_extensions"]` lookup table.  A truthy explicit
`file_extension` wins, lowercased; otherwise the lowercased `file_type`
(defaulting to the empty string) is looked up in the table, falling back to
the raw lowercased `file_type`, or "unknown" when that is empty. -/
def get_file_extension (fileInfo : FileInfo) (typeMapping : List (Str × Str)) : Str :=
  let fromType :=
    let fileType := lowerStr (fileInfo.file_type.getD [])
    ((typeMapping.lookup fileType).getD (if fileType.isEmpty then "unknown".data else fileType))
  match fileInfo.file_extension with
  | none => fromType
  | some e => if e.isEmpty then fromType else lowerStr e

section ApiClient

/-- Bearer tokens, modelled as opaque numeric identifiers. -/
abbrev Token := Nat

/-- Outcome of one HTTP GET in `make_api_request`: a parsed JSON body, an
`HTTPError` whose `response` is `None`, an `HTTPError` with a status code,
or any other exception (transport failure, JSON decode failure). -/
inductive ApiResp (J : Type) where
  | ok (body : J)
  | httpNoResponse
  | http (status : Nat)
  | exc
deriving DecidableEq, Repr

/-- Environment of `make_api_request`: the remote service's response as a
function of the attempt index and the bearer token presented, and the token
minted by `get_access_token(config, force_refresh=True)`. -/
structure ApiEnv (J : Type) where
  resp : Nat → Token → ApiResp J
  refresh : Token → Token

/-- The retry loop of `make_api_request` from `src/utils/api.py`.
`attempt` is the Python loop index; `remaining` counts the attempts left
(`retries - attempt`), so the recursion is structural and the loop raising
`StopIteration`-style exhaustion returns `None` (the `return None` after the
loop).  Branches, in source order: success returns the parsed body; an
`HTTPError` with no response object retries; 401 refreshes the token and
retries unless this is the final attempt, in which case it returns `None`;
429 sleeps and retries; 400/404 on a URL containing "phone" returns `None`
immediately; any other HTTP error retries; any other exception retries
unless this is the final attempt, in which case it returns `None`. -/
def makeApiRequestGo {J : Type} (env : ApiEnv J) (url : Str) (retries : Nat) :
    Nat → Nat → Token → Option J
  | _, 0, _ => none
  | attempt, remaining + 1, token =>
    match env.resp attempt token with
    | .ok body => some body
    | .httpNoResponse => makeApiRequestGo env url retries (attempt + 1) remaining token
    | .http status =>
      if status = 401 then
        if attempt < retries - 1 then
          makeApiRequestGo env url retries (attempt + 1) remaining (env.refresh token)
        else none
      else if status = 429 then
        makeApiRequestGo env url retries (attempt + 1) remaining token
      else if (status = 400 ∨ status = 404) ∧ containsSub "phone".data url then none
      else makeApiRequestGo env url retries (attempt + 1) remaining token
    | .exc =>
      if attempt < retries - 1 then
        makeApiRequestGo env url retries (attempt + 1) remaining token
      else none

/-- `make_api_request(url, token, config, params)` with
`config["api"]["retries"] = retries`; sleeps are dropped, the `params` are
part of the abstract response environment. -/
def make_api_request {J : Type} (env : ApiEnv J) (url : Str) (retries : Nat) (token : Token) :
    Option J :=
  makeApiRequestGo env url retries 0 retries token

end ApiClient

section DateRanges

/-- A calendar date as `datetime.strptime(s, "%Y-%m-%d")` produces it. -/
structure Date where
  year : Nat
  month : Nat
  day : Nat
deriving DecidableEq, Repr

/-- Python `datetime` comparison: lexicographic on (year, month, day). -/
def Date.lt (a b : Date) : Prop :=
  a.year < b.year ∨ (a.year = b.year ∧ (a.month < b.month ∨ (a.month = b.month ∧ a.day < b.day)))

instance : LT Date := ⟨Date.lt⟩

instance (a b : Date) : Decidable (a < b) :=
  decidable_of_iff
    (a.year < b.year ∨ (a.year = b.year ∧ (a.month < b.month ∨ (a.month = b.month ∧ a.day < b.day))))
    Iff.rfl

/-- Number of days in a month, with the Gregorian leap-year rule. -/
def daysInMonth (year month : Nat) : Nat :=
  if month = 2 then
    if year % 4 = 0 ∧ (year % 100 ≠ 0 ∨ year % 400 = 0) then 29 else 28
  else if month = 4 ∨ month = 6 ∨ month = 9 ∨ month = 11 then 30
  else 31

/-- `date + relativedelta(months=m)`: advance the month, clamping the day
to the last day of the target month. -/
def addMonths (d : Date) (m : Nat) : Date :=
  let t := d.year * 12 + (d.month - 1) + m
  let year := t / 12
  let month := t % 12 + 1
  ⟨year, month, min d.day (daysInMonth year month)⟩

/-- Python `min` of two dates: the first argument when it is not greater. -/
def minDate (a b : Date) : Date := if b < a then b else a

/-- Months elapsed since year zero; the termination measure of the
window loop. -/
def monthIndex (d : Date) : Nat := d.year * 12 + (d.month - 1)

/-- A date whose month is in 1..12, as `datetime.strptime(s, "%Y-%m-%d")`
guarantees for every date it returns. -/
def ValidDate := {d : Date // 1 ≤ d.month ∧ d.month ≤ 12}

/-- `addMonths` preserves month validity. -/
theorem addMonths_month_valid (d : Date) (m : Nat) :
    1 ≤ (addMonths d m).month ∧ (addMonths d m).month ≤ 12 := by
  simp only [addMonths]
  omega

/-- `addMonths` on valid dates. -/
def addMonthsV (d : ValidDate) (m : Nat) : ValidDate :=
  ⟨addMonths d.val m, addMonths_month_valid d.val m⟩

/-- `minDate` on valid dates. -/
def minDateV (a b : ValidDate) : ValidDate := if b.val < a.val then b else a

theorem monthIndex_addMonths (d : Date) (m : Nat) :
    monthIndex (addMonths d m) = monthIndex d + m := by
  simp only [monthIndex, addMonths]
  omega

theorem Date.lt_irr (d : Date) : ¬ d < d := by
  obtain ⟨y, mo, da⟩ := d
  have h : ¬ Date.lt ⟨y, mo, da⟩ ⟨y, mo, da⟩ := by
    simp only [Date.lt]
    omega
  exact h

theorem Date.lt_or_eq_or_gt (a b : Date) : a < b ∨ a = b ∨ b < a := by
  obtain ⟨ya, ma, da⟩ := a
  obtain ⟨yb, mb, db⟩ := b
  have h : Date.lt ⟨ya, ma, da⟩ ⟨yb, mb, db⟩ ∨ (Date.mk ya ma da = Date.mk yb mb db) ∨
      Date.lt ⟨yb, mb, db⟩ ⟨ya, ma, da⟩ := by
    simp only [Date.lt, Date.mk.injEq]
    omega
  exact h

/-- A date with a valid month that is below another date has a month index
no larger than the other's. -/
theorem lt_monthIndex_le {a b : Date} (ha : 1 ≤ a.month ∧ a.month ≤ 12) (hab : a < b) :
    monthIndex a ≤ monthIndex b := by
  obtain ⟨ya, ma, da⟩ := a
  obtain ⟨yb, mb, db⟩ := b
  have hab' : Date.lt ⟨ya, ma, da⟩ ⟨yb, mb, db⟩ := hab
  simp only [Date.lt] at hab'
  simp only [monthIndex]
  simp only at ha
  omega

/-- The `while current < end` loop of `generate_date_ranges` from
`src/utils/api.py`, running on the parsed datetimes: while the cursor is
before the end, emit the window from the cursor to
`min(cursor + relativedelta(months=m), end)` and move the cursor to that
window's end.  `hm` records that `months_per_range` is at least one, which
is what makes the Python loop terminate. -/
def generateDateRangesGo (m : Nat) (hm : 1 ≤ m) (e : ValidDate) (cur : ValidDate) :
    List (Date × Date) :=
  if h : cur.val < e.val then
    (cur.val, (minDateV (addMonthsV cur m) e).val) ::
      generateDateRangesGo m hm e (minDateV (addMonthsV cur m) e)
  else []
termination_by
  2 * (monthIndex e.val + 1 - monthIndex cur.val) + (if cur.val < e.val then 1 else 0)
decreasing_by
  have hcur : monthIndex cur.val ≤ monthIndex e.val := lt_monthIndex_le cur.property h
  by_cases hmin : e.val < (addMonthsV cur m).val
  · simp only [minDateV, if_pos hmin, if_pos h, if_neg (Date.lt_irr e.val)]
    omega
  · simp only [minDateV, if_neg hmin, if_pos h]
    have hle : monthIndex (addMonthsV cur m).val ≤ monthIndex e.val := by
      rcases Date.lt_or_eq_or_gt (addMonthsV cur m).val e.val with hlt | heq | hgt
      · exact lt_monthIndex_le (addMonthsV cur m).property hlt
      · rw [heq]
      · exact absurd hgt hmin
    have hadd : monthIndex (addMonthsV cur m).val = monthIndex cur.val + m :=
      monthIndex_addMonths cur.val m
    split
    · omega
    · omega

/-- `generate_date_ranges(start_date, end_date, config, months_per_range)`
from `src/utils/api.py`.  The `strptime`/`strftime` round-trips are
dropped: the loop state is the parsed datetimes, and the windows are
returned as date pairs rather than formatted strings. -/
def generate_date_ranges (startDate endDate : ValidDate) (m : Nat) (hm : 1 ≤ m) :
    List (Date × Date) :=
  generateDateRangesGo m hm endDate startDate

/-- The windows tile an interval: each window starts where the previous one
ended, the first starting at `start`, the last ending at `stop` (an empty
list tiles only the degenerate interval). -/
def IsWindowChain (start stop : Date) : List (Date × Date) → Prop
  | [] => start = stop
  | (a, b) :: rest => a = start ∧ IsWindowChain b stop rest

end DateRanges

section Database

/-- Raw JSON snapshot stored with an inventory row (enough of it to re-derive
the download, per the discovery inserts). -/
inductive RawData where
  | meetingData (meeting : Meeting) (fileInfo : FileInfo)
  | phoneData
  | otherData
deriving DecidableEq, Repr

/-- One row of `zoom_recording_inventory_{version}` as created by
`src/database/setup.py`; nullable columns are `Option`, `recording_type` and
`recording_id` are NOT NULL, timestamps are opaque numbers. -/
structure InvRow where
  id : Nat
  recording_type : Str
  recording_id : Str
  meeting_id : Option Str := none
  user_email : Option Str := none
  topic : Option Str := none
  start_time : Option Str := none
  duration : Option Nat := none
  file_type : Option Str := none
  file_size : Option Nat := none
  download_url : Option Str := none
  status : Str := "found".data
  downloaded_at : Option Nat := none
  error_message : Option Str := none
  raw_data : RawData := .otherData
deriving DecidableEq, Repr

/-- Postgres conflict on the `UNIQUE(recording_type, recording_id, file_type)`
constraint: the three columns must match, and SQL NULL compares distinct, so
a row whose `file_type` is NULL never conflicts with anything. -/
def invConflict (a b : InvRow) : Bool :=
  a.recording_type == b.recording_type && a.recording_id == b.recording_id &&
    match a.file_type, b.file_type with
    | some x, some y => x == y
    | _, _ => false

/-- The effect of `INSERT ... ON CONFLICT (recording_type, recording_id,
file_type) DO NOTHING` from `insert_meeting_inventory` /
`insert_phone_inventory` in `src/database/inventory.py`: append the row
unless it conflicts with an existing one. -/
def insertInventory (table : List InvRow) (r : InvRow) : List InvRow :=
  if table.any (fun x => invConflict x r) then table else table ++ [r]

/-- One discovery run over fixed users, date range and API data inserts a
deterministic list of accepted records (those carrying a download URL and,
for meetings, a "completed" status) in a deterministic order
(`discover_meeting_recordings` / `discover_phone_recordings` in
`src/zoom_api/discovery.py`); its effect on the inventory is the fold of
the conflict-ignoring inserts. -/
def discoveryRun (table : List InvRow) (accepted : List InvRow) : List InvRow :=
  accepted.foldl insertInventory table

/-- A generic SQL `UPDATE ... SET ... WHERE`: rows satisfying the condition
are transformed in place, all other rows are untouched. -/
def sqlUpdate (setRow : InvRow → InvRow) (whereCond : InvRow → Bool)
    (table : List InvRow) : List InvRow :=
  table.map (fun r => if whereCond r then setRow r else r)

/-- The reset statement of `retry_failed_recordings`
(`src/retry_failed_downloads.py`): `UPDATE ... SET status='found',
error_message=NULL, downloaded_at=NULL WHERE status='failed'`. -/
def resetFailedRows (table : List InvRow) : List InvRow :=
  sqlUpdate
    (fun r => { r with status := "found".data, error_message := none, downloaded_at := none })
    (fun r => r.status == "failed".data)
    table

/-- One row of `zoom_recordings_{version}` (meeting metadata).  Note that
`src/database/setup.py` creates this table with NO unique constraint.  The
`unprocessed` fallback blob is the data it is built from. -/
structure MeetingMetaRow where
  meeting_id : Option Str
  recording_id : Option Str
  topic : Option Str
  host_id : Option Str
  host_email : Str
  start_time : Option Str
  duration : Option Nat
  file_type : Option Str
  file_size : Option Nat
  recording_type : Option Str
  download_url : Option Str
  transcript_url : Option Str
  path : Str
  transcript_path : Option Str
  data_type : Str
  unprocessed : Meeting × FileInfo
deriving DecidableEq, Repr

/-- `save_meeting_metadata` from `src/database/metadata.py`: an
`INSERT ... ON CONFLICT DO NOTHING` into `zoom_recordings_{version}`.
Because that table has no unique constraint, no conflict can ever arise in
Postgres and every call appends a row; the function returns True (database
errors are out of the model). -/
def save_meeting_metadata (table : List MeetingMetaRow) (meeting : Meeting)
    (userEmail : Str) (fileInfo : FileInfo) (localPath : Str)
    (transcriptPath : Option Str) : List MeetingMetaRow × Bool :=
  (table ++
    [{ meeting_id := meeting.uuid, recording_id := fileInfo.id, topic := meeting.topic,
       host_id := meeting.host_id, host_email := userEmail, start_time := meeting.start_time,
       duration := meeting.duration, file_type := fileInfo.file_type,
       file_size := fileInfo.file_size, recording_type := fileInfo.recording_type,
       download_url := some fileInfo.download_url, transcript_url := none, path := localPath,
       transcript_path := transcriptPath, data_type := "meeting".data,
       unprocessed := (meeting, fileInfo) }], true)

/-- Number of meeting-metadata rows sharing a natural key
(`meeting_id`, `recording_id`). -/
def countMeetingKey (table : List MeetingMetaRow) (meetingId recordingId : Option Str) : Nat :=
  table.countP (fun r => r.meeting_id == meetingId && r.recording_id == recordingId)

end Database

section DownloadEngine

/-- State of the module-global `_token_refresh_counter` in
`src/zoom_api/download.py` (the `last_refresh` timestamp is never read). -/
structure RefreshState where
  consecutive401s : Nat
  total401s : Nat
deriving DecidableEq, Repr

/-- `should_refresh_token`: the refresh threshold is one consecutive 401. -/
def should_refresh_token (st : RefreshState) : Bool := 1 ≤ st.consecutive401s

/-- `reset_401_counter`. -/
def reset_401_counter (st : RefreshState) : RefreshState := { st with consecutive401s := 0 }

/-- `increment_401_counter`: bumps both counters. -/
def increment_401_counter (st : RefreshState) : RefreshState :=
  { consecutive401s := st.consecutive401s + 1, total401s := st.total401s + 1 }

/-- Outcome of one call to `download_file` (`src/utils/file.py`): it returns
a boolean and swallows its own exceptions, but the caller still guards
against a raised exception, modelled by `raise` with the exception text. -/
inductive DlResult where
  | ok
  | fail
  | raise (msg : Str)
deriving DecidableEq, Repr

/-- Environment of the download engine: the behaviour of `download_file` as
a function of URL and token, and the token minted by
`get_access_token(config, force_refresh=True)` — `none` models that call
raising, after which `refresh_token_if_needed` returns `None`. -/
structure DlCtx where
  download : Str → Token → DlResult
  newToken : Option Token

/-- `refresh_token_if_needed`: refresh when the counter is at the threshold,
resetting it on a successful refresh. -/
def refresh_token_if_needed (ctx : DlCtx) (st : RefreshState) : Option Token × RefreshState :=
  if should_refresh_token st then
    match ctx.newToken with
    | some t => (some t, reset_401_counter st)
    | none => (none, st)
  else (none, st)

/-- Result of `download_file_with_token_refresh`: success flag, the token
the caller should continue with, the counter state, and the log of
(url, token) pairs passed to `download_file`. -/
structure DlAttempt where
  success : Bool
  token : Token
  st : RefreshState
  attempts : List (Str × Token)
deriving DecidableEq, Repr

/-- The except-branch of `download_file_with_token_refresh`.  `curToken` is
the function's `current_token` local, which is never reassigned inside the
try block, so the handler's failure paths return the original token. -/
def dlExceptHandler (ctx : DlCtx) (url : Str) (curToken : Token) (msg : Str)
    (st : RefreshState) (attempts : List (Str × Token)) : DlAttempt :=
  if containsSub "401".data msg || containsSub "Unauthorized".data msg then
    let st1 := increment_401_counter st
    match refresh_token_if_needed ctx st1 with
    | (some nt, st2) =>
      (match ctx.download url nt with
       | .ok => ⟨true, nt, reset_401_counter st2, attempts ++ [(url, nt)]⟩
       | .fail => ⟨false, nt, st2, attempts ++ [(url, nt)]⟩
       | .raise _ => ⟨false, nt, st2, attempts ++ [(url, nt)]⟩)
    | (none, st2) => ⟨false, curToken, st2, attempts⟩
  else ⟨false, curToken, st, attempts⟩

/-- `download_file_with_token_refresh` from `src/zoom_api/download.py`:
first attempt with the current token; on success reset the counter; on a
boolean failure increment the counter, refresh if at the threshold and
retry once; a raised exception goes to the except-branch, which refreshes
and retries only when the text mentions 401/Unauthorized. -/
def download_file_with_token_refresh (ctx : DlCtx) (url : Str) (token : Token)
    (st : RefreshState) : DlAttempt :=
  match ctx.download url token with
  | .ok => ⟨true, token, reset_401_counter st, [(url, token)]⟩
  | .fail =>
    let st1 := increment_401_counter st
    (match refresh_token_if_needed ctx st1 with
     | (some nt, st2) =>
       (match ctx.download url nt with
        | .ok => ⟨true, nt, reset_401_counter st2, [(url, token), (url, nt)]⟩
        | .fail => ⟨false, nt, st2, [(url, token), (url, nt)]⟩
        | .raise msg2 => dlExceptHandler ctx url token msg2 st2 [(url, token), (url, nt)])
     | (none, st2) => ⟨false, token, st2, [(url, token)]⟩)
  | .raise msg => dlExceptHandler ctx url token msg st [(url, token)]

/-- The configuration slice the download engine reads. -/
structure DlConfig where
  base_dir : Str
  file_extensions : List (Str × Str)

/-- `os.path.join` for components without leading slashes. -/
def pathJoin (a b : Str) : Str := a ++ '/' :: b

/-- `create_dirs(base_dir, user_email, data_type)` from `src/utils/file.py`
returns (and creates) `base_dir/data_type/user_email`. -/
def create_dirs (baseDir userEmail dataType : Str) : Str :=
  pathJoin (pathJoin baseDir dataType) userEmail

/-- The deterministic local path `download_meeting_from_inventory` derives:
`{base_dir}_{version}/meetings/{user_email}/{meeting_id}_{file_id}.{ext}`. -/
def meetingFilePath (cfg : DlConfig) (version userEmail : Str) (meeting : Meeting)
    (fileInfo : FileInfo) : Str :=
  let baseDir := cfg.base_dir ++ '_' :: version
  let userDir := create_dirs baseDir userEmail "meetings".data
  let ext := get_file_extension fileInfo cfg.file_extensions
  let filename := (meeting.id.getD "unknown".data) ++ '_' :: (fileInfo.id.getD "unknown".data)
      ++ '.' :: ext
  pathJoin userDir filename

/-- Result of `download_meeting_from_inventory` on the modelled state:
success flag, token, counter state, filesystem contents (the list of
existing paths), meeting metadata table, and the (url, token) download
attempts that went over the network. -/
structure MeetingDlOutcome where
  success : Bool
  token : Token
  st : RefreshState
  fs : List Str
  meta : List MeetingMetaRow
  fetches : List (Str × Token)
deriving DecidableEq, Repr

/-- `download_meeting_from_inventory` from `src/zoom_api/download.py`: derive
the local path; when it already exists skip the network entirely and go
straight to the metadata insert; otherwise fetch the passcode-augmented URL
with token-refresh-on-failure, the file appearing on disk on success,
followed by the metadata insert. -/
def download_meeting_from_inventory (ctx : DlCtx) (cfg : DlConfig) (version userEmail : Str)
    (meeting : Meeting) (fileInfo : FileInfo) (token : Token) (st : RefreshState)
    (fs : List Str) (meta : List MeetingMetaRow) : MeetingDlOutcome :=
  let filePath := meetingFilePath cfg version userEmail meeting fileInfo
  if fs.contains filePath then
    let saved := save_meeting_metadata meta meeting userEmail fileInfo filePath none
    ⟨saved.2, token, st, fs, saved.1, []⟩
  else
    let downloadUrl := add_passcode_to_url fileInfo.download_url meeting
    let dl := download_file_with_token_refresh ctx downloadUrl token st
    if dl.success then
      let saved := save_meeting_metadata meta meeting userEmail fileInfo filePath none
      ⟨saved.2, dl.token, dl.st, fs ++ [filePath], saved.1, dl.attempts⟩
    else
      ⟨false, dl.token, dl.st, fs, meta, dl.attempts⟩

/-- Outcome of one dispatch inside the batch loop (the call to
`download_meeting_from_inventory` / `download_phone_from_inventory`), which
returns a (success, token) pair or raises; `raise` also covers an exception
from the subsequent status update, since both sit in the same try block. -/
inductive StepOutcome where
  | done (success : Bool) (token : Token)
  | raise (msg : Str)
deriving DecidableEq, Repr

/-- Environment of the batch loop: the outcomes of processing a meeting or
phone record given the current token, and the clock value used for
`datetime.now()`. -/
structure BatchEnv where
  procMeeting : InvRow → Token → StepOutcome
  procPhone : InvRow → Token → StepOutcome
  now : Nat

/-- The dispatch on `recording_type` inside the batch loop; an unknown type
logs a warning and counts as a failure without touching the token. -/
def batchStep (env : BatchEnv) (r : InvRow) (token : Token) : StepOutcome :=
  if r.recording_type == "meeting".data then env.procMeeting r token
  else if r.recording_type == "phone".data then env.procPhone r token
  else .done false token

/-- One emitted `update_recording_status` call from the batch loop. -/
structure StatusUpdate where
  invId : Nat
  status : Str
  downloaded_at : Option Nat
  error_message : Option Str
deriving DecidableEq, Repr

/-- The per-record body of `download_recordings_from_inventory`: a normal
return updates the status to "downloaded" (with timestamp) or "failed"
(with no error message); a caught exception updates it to "failed" with the
exception text, leaving the token as it was. -/
def processRecord (env : BatchEnv) (r : InvRow) (token : Token) : StatusUpdate × Token :=
  match batchStep env r token with
  | .done success newToken =>
    (⟨r.id, if success then "downloaded".data else "failed".data,
      if success then some env.now else none, none⟩, newToken)
  | .raise msg => (⟨r.id, "failed".data, none, some msg⟩, token)

/-- The loop of `download_recordings_from_inventory`
(`src/zoom_api/download.py`) over the records returned by
`get_undownloaded_recordings`: each record produces exactly one status
update, the token threads through, and a caught exception never stops the
iteration. -/
def download_recordings_from_inventory (env : BatchEnv) :
    List InvRow → Token → List StatusUpdate × Token
  | [], token => ([], token)
  | r :: rest, token =>
    let step := processRecord env r token
    let tail := download_recordings_from_inventory env rest step.2
    (step.1 :: tail.1, tail.2)

/-- The token in hand when the batch loop reaches the record at index `i`. -/
def tokenBefore (env : BatchEnv) : List InvRow → Token → Nat → Token
  | _, token, 0 => token
  | [], token, _ + 1 => token
  | r :: rest, token, i + 1 => tokenBefore env rest (processRecord env r token).2 i

end DownloadEngine

section Fixtures

/-- A failed inventory row used in concrete instantiations. -/
def failedRowFx : InvRow :=
  { id := 1, recording_type := "meeting".data, recording_id := "a".data,
    status := "failed".data, error_message := some "oops".data }

/-- A downloaded inventory row used in concrete instantiations. -/
def downloadedRowFx : InvRow :=
  { id := 2, recording_type := "phone".data, recording_id := "b".data,
    status := "downloaded".data, downloaded_at := some 7 }

/-- A two-row inventory table with one failed and one downloaded row. -/
def retryTableFx : List InvRow := [failedRowFx, downloadedRowFx]

/-- A batch environment where meeting processing raises and phone
processing succeeds. -/
def batchEnvFx : BatchEnv :=
  { procMeeting := fun _ _ => .raise "boom".data,
    procPhone := fun _ _ => .done true 5, now := 9 }

/-- A meeting record followed by a phone record. -/
def batchRecsFx : List InvRow :=
  [{ id := 1, recording_type := "meeting".data, recording_id := "a".data },
   { id := 2, recording_type := "phone".data, recording_id := "b".data }]

/-- An inventory row with a NULL `file_type` (the discovery filter does not
require one: it only checks `download_url` and `status`). -/
def nullFtRowFx : InvRow :=
  { id := 3, recording_type := "meeting".data, recording_id := "r1".data, file_type := none }

/-- An inventory row with a non-null `file_type`. -/
def mp4RowFx : InvRow :=
  { id := 4, recording_type := "meeting".data, recording_id := "r2".data,
    file_type := some "MP4".data }

/-- A concrete meeting for the duplicate-metadata demonstration. -/
def c1MeetingFx : Meeting := { id := some "m1".data, uuid := some "uuid1".data }

/-- A concrete file descriptor for the duplicate-metadata demonstration. -/
def c1FileInfoFx : FileInfo :=
  { id := some "f1".data, file_type := some "MP4".data,
    download_url := "https://zoom.example/rec1".data }

/-- A concrete download configuration. -/
def c1CfgFx : DlConfig :=
  { base_dir := "backup".data, file_extensions := [("mp4".data, "mp4".data)] }

/-- The derived local path of `c1MeetingFx`/`c1FileInfoFx`. -/
def c1PathFx : Str := meetingFilePath c1CfgFx "v4".data "user".data c1MeetingFx c1FileInfoFx

/-- A download context whose fetches always succeed and whose refresh fails. -/
def c1CtxFx : DlCtx := { download := fun _ _ => .ok, newToken := none }

/-- One run of the meeting download with the file already on disk. -/
def c1RunOnce : MeetingDlOutcome :=
  download_meeting_from_inventory c1CtxFx c1CfgFx "v4".data "user".data c1MeetingFx c1FileInfoFx
    0 ⟨0, 0⟩ [c1PathFx] []

/-- A second identical run, continuing from the first run's state. -/
def c1RunTwice : MeetingDlOutcome :=
  download_meeting_from_inventory c1CtxFx c1CfgFx "v4".data "user".data c1MeetingFx c1FileInfoFx
    c1RunOnce.token c1RunOnce.st c1RunOnce.fs c1RunOnce.meta

/-- A download context that always fails with a plain boolean failure (no
exception, no 401 anywhere) and can mint token 1. -/
def c8CtxFx : DlCtx := { download := fun _ _ => .fail, newToken := some 1 }

/-- A download context that always succeeds. -/
def c8OkCtxFx : DlCtx := { download := fun _ _ => .ok, newToken := none }

/-- An API environment answering the first attempt with HTTP 400 and every
later attempt with a parsed body. -/
def c4EnvFx : ApiEnv Nat :=
  { resp := fun attempt _ => if attempt = 0 then .http 400 else .ok 7,
    refresh := fun t => t }

/-- A phone-recordings endpoint URL (contains "phone"). -/
def c4PhoneUrlFx : Str := "https://api.zoom.us/v2/phone/users/u1/recordings".data

/-- An API environment answering 401 on every attempt. -/
def c4AuthEnvFx : ApiEnv Nat := { resp := fun _ _ => .http 401, refresh := fun t => t + 1 }

end Fixtures

section BatchLoopLemmas

/-- The batch loop emits one status update per record. -/
theorem batch_length (env : BatchEnv) :
    ∀ (recs : List InvRow) (token : Token),
      (download_recordings_from_inventory env recs token).1.length = recs.length
  | [], _ => rfl
  | _ :: rest, token => by
    simp only [download_recordings_from_inventory, List.length_cons]
    exact congrArg Nat.succ (batch_length env rest _)

/-- The update at index `i` is the processing of the record at index `i`
with the token the loop has threaded to that point, whatever happened at
the other indices. -/
theorem batch_get (env : BatchEnv) :
    ∀ (recs : List InvRow) (token : Token) (i : Nat) (hi : i < recs.length)
      (hi2 : i < (download_recordings_from_inventory env recs token).1.length),
      (download_recordings_from_inventory env recs token).1.get ⟨i, hi2⟩ =
        (processRecord env (recs.get ⟨i, hi⟩) (tokenBefore env recs token i)).1
  | r :: rest, token, 0, _, _ => rfl
  | r :: rest, token, i + 1, hi, hi2 => by
    simp only [download_recordings_from_inventory, List.get_cons_succ, tokenBefore]
    exact batch_get env rest (processRecord env r token).2 i (Nat.lt_of_succ_lt_succ hi) _

end BatchLoopLemmas

/-- C3: in the download batch loop, every inventory record yields exactly one
status update (its own), in order; when the processing of a record raises,
that record's update sets status "failed" with the exception text as the
error message and a cleared timestamp; processing of all other records is
unaffected (each update is determined by its own record and the threaded
token), so no failure aborts the batch. -/
theorem batch_loop_isolation (env : BatchEnv) (recs : List InvRow) (token : Token) :
    (download_recordings_from_inventory env recs token).1.length = recs.length ∧
    (∀ (i : Nat) (hi : i < recs.length)
        (hi2 : i < (download_recordings_from_inventory env recs token).1.length),
      ((download_recordings_from_inventory env recs token).1.get ⟨i, hi2⟩).invId =
          (recs.get ⟨i, hi⟩).id ∧
      ((download_recordings_from_inventory env recs token).1.get ⟨i, hi2⟩ =
          (processRecord env (recs.get ⟨i, hi⟩) (tokenBefore env recs token i)).1) ∧
      ∀ msg, batchStep env (recs.get ⟨i, hi⟩) (tokenBefore env recs token i) = .raise msg →
        (download_recordings_from_inventory env recs token).1.get ⟨i, hi2⟩ =
          ⟨(recs.get ⟨i, hi⟩).id, "failed".data, none, some msg⟩) := by
  refine ⟨batch_length env recs token, fun i hi hi2 => ?_⟩
  have hg := batch_get env recs token i hi hi2
  refine ⟨?_, hg, ?_⟩
  · rw [hg]
    unfold processRecord
    cases batchStep env (recs.get ⟨i, hi⟩) (tokenBefore env recs token i) <;> simp
  · intro msg hmsg
    rw [hg]
    unfold processRecord
    rw [hmsg]

/-- Witness for C3: a two-record batch where the first record's processing
raises; the first update is failed-with-message and the second record is
still processed. -/
theorem batch_loop_isolation_witness :
    (download_recordings_from_inventory batchEnvFx batchRecsFx 0).1.length = 2 ∧
    (download_recordings_from_inventory batchEnvFx batchRecsFx 0).1.get ⟨0, by decide⟩ =
      ⟨1, "failed".data, none, some "boom".data⟩ := by
  refine ⟨(batch_loop_isolation batchEnvFx batchRecsFx 0).1, ?_⟩
  exact ((batch_loop_isolation batchEnvFx batchRecsFx 0).2 0 (by decide) (by decide)).2.2
    "boom".data (by decide)

/-- C5: the derived file extension is the lowercased explicit
`file_extension` when present and non-empty; otherwise the lookup table's
entry for the lowercased `file_type`; otherwise the raw lowercased
`file_type`; otherwise "unknown" — together with the spec's two concrete
instances, the second holding regardless of `file_type`. -/
theorem extension_resolution_spec (fileInfo : FileInfo) (typeMapping : List (Str × Str)) :
    (∀ e, fileInfo.file_extension = some e → e ≠ [] →
      get_file_extension fileInfo typeMapping = lowerStr e) ∧
    ((fileInfo.file_extension = none ∨ fileInfo.file_extension = some []) →
      (∀ x, typeMapping.lookup (lowerStr (fileInfo.file_type.getD [])) = some x →
        get_file_extension fileInfo typeMapping = x) ∧
      (typeMapping.lookup (lowerStr (fileInfo.file_type.getD [])) = none →
        (lowerStr (fileInfo.file_type.getD []) ≠ [] →
          get_file_extension fileInfo typeMapping = lowerStr (fileInfo.file_type.getD [])) ∧
        (lowerStr (fileInfo.file_type.getD []) = [] →
          get_file_extension fileInfo typeMapping = "unknown".data))) ∧
    get_file_extension { file_type := some "MP4".data } [("mp4".data, "mp4".data)]
      = "mp4".data ∧
    (∀ ft, get_file_extension { file_type := ft, file_extension := some "M4A".data }
      [("mp4".data, "mp4".data)] = "m4a".data) := by
  refine ⟨?_, ?_, by decide, fun ft => ?_⟩
  · intro e he hne
    simp [get_file_extension, he, List.isEmpty_iff, hne]
  · intro hext
    constructor
    · intro x hx
      rcases hext with h | h <;> simp [get_file_extension, h, hx]
    · intro hnone
      constructor
      · intro hne
        rcases hext with h | h <;>
          simp [get_file_extension, h, hnone, List.isEmpty_iff, hne]
      · intro hemp
        rw [hemp] at hnone
        rcases hext with h | h <;>
          simp [get_file_extension, h, hemp, hnone, List.isEmpty_iff]
  · have h2 : lowerStr "M4A".data = "m4a".data := by decide
    simp [get_file_extension, h2]

/-- Witness for C5: the explicit-extension branch at a concrete input. -/
theorem extension_resolution_spec_witness :
    get_file_extension { file_extension := some "M4A".data } [] = "m4a".data :=
  (extension_resolution_spec { file_extension := some "M4A".data } []).1 "M4A".data rfl
    (by decide)

/-- C7: the retry/reset maintenance action keeps the table's shape, turns
exactly the failed rows into found rows with `error_message` and
`downloaded_at` cleared and every other column kept, and leaves every
non-failed row — in particular every downloaded row — entirely unchanged. -/
theorem retry_reset_frame (table : List InvRow) :
    (resetFailedRows table).length = table.length ∧
    ∀ (i : Nat) (hi : i < table.length) (hi2 : i < (resetFailedRows table).length),
      ((table.get ⟨i, hi⟩).status = "failed".data →
        (resetFailedRows table).get ⟨i, hi2⟩ =
          { table.get ⟨i, hi⟩ with
              status := "found".data, error_message := none, downloaded_at := none }) ∧
      ((table.get ⟨i, hi⟩).status ≠ "failed".data →
        (resetFailedRows table).get ⟨i, hi2⟩ = table.get ⟨i, hi⟩) ∧
      ((table.get ⟨i, hi⟩).status = "downloaded".data →
        (resetFailedRows table).get ⟨i, hi2⟩ = table.get ⟨i, hi⟩) := by
  refine ⟨by simp [resetFailedRows, sqlUpdate], fun i hi hi2 => ?_⟩
  have hget : (resetFailedRows table).get ⟨i, hi2⟩ =
      (fun r => if r.status == "failed".data then
        { r with status := "found".data, error_message := none, downloaded_at := none }
      else r) (table.get ⟨i, hi⟩) := by
    simp [resetFailedRows, sqlUpdate, List.getElem_map]
  refine ⟨?_, ?_, ?_⟩
  · intro hf
    simp only [hget, hf]
    simp
  · intro hnf
    simp only [hget]
    rw [if_neg]
    simp only [beq_iff_eq]
    exact hnf
  · intro hd
    simp only [hget]
    rw [if_neg]
    simp only [beq_iff_eq, hd]
    decide

/-- Witness for C7: a two-row table with one failed and one downloaded row;
the failed row is reset, the downloaded row untouched. -/
theorem retry_reset_frame_witness :
    (resetFailedRows retryTableFx).get ⟨0, by decide⟩ =
      { failedRowFx with
          status := "found".data, error_message := none, downloaded_at := none } ∧
    (resetFailedRows retryTableFx).get ⟨1, by decide⟩ = downloadedRowFx := by
  constructor
  · exact ((retry_reset_frame retryTableFx).2 0 (by decide) (by decide)).1 (by decide)
  · exact ((retry_reset_frame retryTableFx).2 1 (by decide) (by decide)).2.2 (by decide)

section InventoryLemmas

/-- A row with a non-null `file_type` conflicts with itself. -/
theorem invConflict_self {r : InvRow} (h : r.file_type ≠ none) : invConflict r r = true := by
  unfold invConflict
  cases hf : r.file_type with
  | none => exact absurd hf h
  | some ft => simp [hf]

/-- Inserting any row preserves the presence of a conflicting row. -/
theorem present_mono (table : List InvRow) (s r : InvRow)
    (h : table.any (fun x => invConflict x r) = true) :
    (insertInventory table s).any (fun x => invConflict x r) = true := by
  unfold insertInventory
  split
  · exact h
  · simp [List.any_append, h]

/-- After inserting a row with a non-null `file_type`, a conflicting row is
present. -/
theorem present_insert_self (table : List InvRow) (r : InvRow) (h : r.file_type ≠ none) :
    (insertInventory table r).any (fun x => invConflict x r) = true := by
  unfold insertInventory
  split
  · assumption
  · simp [List.any_append, invConflict_self h]

/-- A discovery run preserves the presence of a conflicting row. -/
theorem present_run (table : List InvRow) (L : List InvRow) (r : InvRow)
    (h : table.any (fun x => invConflict x r) = true) :
    (discoveryRun table L).any (fun x => invConflict x r) = true := by
  induction L generalizing table with
  | nil => exact h
  | cons s rest ih => exact ih _ (present_mono table s r h)

/-- After a discovery run, every accepted record with a non-null
`file_type` has a conflicting row in the inventory. -/
theorem present_run_mem (table : List InvRow) (L : List InvRow) (r : InvRow)
    (hr : r ∈ L) (h : r.file_type ≠ none) :
    (discoveryRun table L).any (fun x => invConflict x r) = true := by
  induction hr generalizing table with
  | head rest => exact present_run _ rest r (present_insert_self table r h)
  | tail b hmem ih => exact ih _

/-- An insert whose key is already present changes nothing. -/
theorem insert_of_present (table : List InvRow) (r : InvRow)
    (h : table.any (fun x => invConflict x r) = true) :
    insertInventory table r = table := by
  unfold insertInventory
  rw [if_pos h]

/-- A discovery run all of whose records find their key present changes
nothing. -/
theorem run_of_all_present (table : List InvRow) (L : List InvRow)
    (h : ∀ r ∈ L, table.any (fun x => invConflict x r) = true) :
    discoveryRun table L = table := by
  induction L with
  | nil => rfl
  | cons s rest ih =>
    show discoveryRun (insertInventory table s) rest = table
    rw [insert_of_present table s (h s (List.mem_cons_self s rest))]
    exact ih (fun r hr => h r (List.mem_cons_of_mem s hr))

/-- An insert preserves pairwise conflict-freedom of the table. -/
theorem insert_pairwise (table : List InvRow) (r : InvRow)
    (h : table.Pairwise (fun a b => invConflict a b = false)) :
    (insertInventory table r).Pairwise (fun a b => invConflict a b = false) := by
  unfold insertInventory
  split
  · exact h
  · rename_i hany
    rw [List.pairwise_append]
    refine ⟨h, List.pairwise_singleton _ _, ?_⟩
    intro a ha b hb
    rw [List.mem_singleton] at hb
    rw [hb]
    have hfalse : table.any (fun x => invConflict x r) = false := by
      cases hx : table.any (fun x => invConflict x r) with
      | false => rfl
      | true => exact absurd hx hany
    simpa using List.any_eq_false.mp hfalse a ha

/-- A discovery run preserves pairwise conflict-freedom of the table. -/
theorem run_pairwise (table : List InvRow) (L : List InvRow)
    (h : table.Pairwise (fun a b => invConflict a b = false)) :
    (discoveryRun table L).Pairwise (fun a b => invConflict a b = false) := by
  induction L generalizing table with
  | nil => exact h
  | cons s rest ih => exact ih _ (insert_pairwise table s h)

end InventoryLemmas

/-- C2 amended: over records with a non-null `file_type`, discovery is
idempotent — a second identical run changes nothing, the inventory stays
free of any two rows agreeing on the (recording_type, recording_id,
file_type) key, and a single record accepted twice changes nothing on its
second insert.  (With a NULL `file_type` the Postgres unique constraint
does not fire, see the counterexample.) -/
theorem discovery_idempotent (table accepted : List InvRow)
    (hA : ∀ r ∈ accepted, r.file_type ≠ none)
    (hU : table.Pairwise (fun a b => invConflict a b = false)) :
    discoveryRun (discoveryRun table accepted) accepted = discoveryRun table accepted ∧
    (discoveryRun table accepted).Pairwise (fun a b => invConflict a b = false) ∧
    ∀ r : InvRow, r.file_type ≠ none →
      insertInventory (insertInventory table r) r = insertInventory table r := by
  refine ⟨?_, run_pairwise table accepted hU, ?_⟩
  · exact run_of_all_present _ accepted
      (fun r hr => present_run_mem table accepted r hr (hA r hr))
  · intro r h
    exact insert_of_present _ r (present_insert_self table r h)

/-- Witness for C2: a one-record discovery run over an empty inventory is
idempotent. -/
theorem discovery_idempotent_witness :
    discoveryRun (discoveryRun [] [mp4RowFx]) [mp4RowFx] = discoveryRun [] [mp4RowFx] :=
  (discovery_idempotent [] [mp4RowFx] (by decide) (by simp)).1

/-- Counterexample for C2: a record with a NULL `file_type` accepted twice
is inserted twice — SQL NULL compares distinct in the unique constraint, so
the conflict-ignore never fires and the inventory ends with two rows for
the same (recording_type, recording_id, file_type) key. -/
theorem discovery_null_file_type_cex :
    discoveryRun (discoveryRun [] [nullFtRowFx]) [nullFtRowFx] = [nullFtRowFx, nullFtRowFx] ∧
    insertInventory (insertInventory [] nullFtRowFx) nullFtRowFx ≠
      insertInventory [] nullFtRowFx ∧
    (nullFtRowFx.recording_type, nullFtRowFx.recording_id, nullFtRowFx.file_type) =
      ("meeting".data, "r1".data, none) := by decide

/-- C1 (bug): with the derived local file path already on disk, a rerun of
the meeting download performs no network fetch and keeps the existing file
and filesystem intact — but because `zoom_recordings_{version}` is created
without any unique constraint, the `ON CONFLICT DO NOTHING` metadata insert
can never see a conflict, and the second run appends a second identical
MetadataRecord row for the same (meeting uuid, file id) natural key. -/
theorem meeting_metadata_duplicate_bug :
    c1RunOnce.fetches = [] ∧ c1RunOnce.fs = [c1PathFx] ∧ c1RunOnce.success = true ∧
    c1RunTwice.fetches = [] ∧ c1RunTwice.fs = [c1PathFx] ∧
    c1RunTwice.meta.length = 2 ∧
    countMeetingKey c1RunTwice.meta (some "uuid1".data) (some "f1".data) = 2 := by decide

/-- C8 amended: the 401 counters are incremented on every boolean download
failure regardless of its cause, and on raised exceptions whose text
mentions 401/Unauthorized (only those); a successful download resets the
consecutive counter; the threshold being one, every counted failure with an
available refreshed token triggers a forced refresh (which resets the
counter) and a single retry of the same download with the new token before
giving up, and when no refreshed token is available the function gives up
with the incremented counter. -/
theorem token_refresh_state_machine (ctx : DlCtx) (url : Str) (token : Token)
    (st : RefreshState) :
    (ctx.download url token = .ok →
      download_file_with_token_refresh ctx url token st =
        ⟨true, token, ⟨0, st.total401s⟩, [(url, token)]⟩) ∧
    (∀ nt, ctx.download url token = .fail → ctx.newToken = some nt →
      (ctx.download url nt = .ok →
        download_file_with_token_refresh ctx url token st =
          ⟨true, nt, ⟨0, st.total401s + 1⟩, [(url, token), (url, nt)]⟩) ∧
      (ctx.download url nt = .fail →
        download_file_with_token_refresh ctx url token st =
          ⟨false, nt, ⟨0, st.total401s + 1⟩, [(url, token), (url, nt)]⟩)) ∧
    (ctx.download url token = .fail → ctx.newToken = none →
      download_file_with_token_refresh ctx url token st =
        ⟨false, token, ⟨st.consecutive401s + 1, st.total401s + 1⟩, [(url, token)]⟩) ∧
    (∀ msg, ctx.download url token = .raise msg →
      (containsSub "401".data msg || containsSub "Unauthorized".data msg) = false →
      download_file_with_token_refresh ctx url token st =
        ⟨false, token, st, [(url, token)]⟩) ∧
    (∀ msg nt, ctx.download url token = .raise msg →
      (containsSub "401".data msg || containsSub "Unauthorized".data msg) = true →
      ctx.newToken = some nt →
      (ctx.download url nt = .ok →
        download_file_with_token_refresh ctx url token st =
          ⟨true, nt, ⟨0, st.total401s + 1⟩, [(url, token), (url, nt)]⟩) ∧
      (ctx.download url nt = .fail →
        download_file_with_token_refresh ctx url token st =
          ⟨false, nt, ⟨0, st.total401s + 1⟩, [(url, token), (url, nt)]⟩)) := by
  refine ⟨?_, ?_, ?_, ?_, ?_⟩
  · intro h
    simp [download_file_with_token_refresh, h, reset_401_counter]
  · intro nt h hnt
    constructor <;> intro h2 <;>
      simp [download_file_with_token_refresh, h, h2, hnt, refresh_token_if_needed,
        should_refresh_token, increment_401_counter, reset_401_counter]
  · intro h hnt
    simp [download_file_with_token_refresh, h, hnt, refresh_token_if_needed,
      should_refresh_token, increment_401_counter]
  · intro msg h hmsg
    simp [download_file_with_token_refresh, h, dlExceptHandler, hmsg]
  · intro msg nt h hmsg hnt
    constructor <;> intro h2 <;>
      simp [download_file_with_token_refresh, h, h2, hnt, dlExceptHandler, hmsg,
        refresh_token_if_needed, should_refresh_token, increment_401_counter,
        reset_401_counter]

/-- Witness for C8: a successful first attempt returns the same token and
resets the consecutive counter. -/
theorem token_refresh_state_machine_witness :
    download_file_with_token_refresh c8OkCtxFx "u".data 5 ⟨2, 9⟩ =
      ⟨true, 5, ⟨0, 9⟩, [("u".data, 5)]⟩ :=
  (token_refresh_state_machine c8OkCtxFx "u".data 5 ⟨2, 9⟩).1 rfl

/-- Counterexample for C8: a plain boolean download failure — no 401, no
exception anywhere — still increments the counters (total goes 0 to 1),
triggers a forced token refresh and retries with the refreshed token 1, so
the counter is not incremented "exactly when a download fails with a 401
authorization error". -/
theorem counter_increment_not_401_cex :
    c8CtxFx.download "u".data 0 = .fail ∧ c8CtxFx.download "u".data 1 = .fail ∧
    download_file_with_token_refresh c8CtxFx "u".data 0 ⟨0, 0⟩ =
      ⟨false, 1, ⟨0, 1⟩, [("u".data, 0), ("u".data, 1)]⟩ := by decide

/-- C4 amended: the API client is a total function into `Option` (a parsed
body or null, never an exception); on 401 it refreshes the token and
retries with the new token unless this is the final attempt, in which case
it returns null; on 400/404 for a URL containing "phone" it returns null
immediately, without using the remaining retry budget; 429, other HTTP
errors and other exceptions are retried, the final failure and an exhausted
budget yielding null. -/
theorem api_request_retry_spec {J : Type} (env : ApiEnv J) (url : Str) (retries : Nat)
    (attempt : Nat) (remaining : Nat) (token : Token) :
    (makeApiRequestGo env url retries attempt 0 token = none) ∧
    (∀ j, env.resp attempt token = .ok j →
      makeApiRequestGo env url retries attempt (remaining + 1) token = some j) ∧
    (env.resp attempt token = .httpNoResponse →
      makeApiRequestGo env url retries attempt (remaining + 1) token =
        makeApiRequestGo env url retries (attempt + 1) remaining token) ∧
    (env.resp attempt token = .http 401 →
      (attempt < retries - 1 →
        makeApiRequestGo env url retries attempt (remaining + 1) token =
          makeApiRequestGo env url retries (attempt + 1) remaining (env.refresh token)) ∧
      (¬ attempt < retries - 1 →
        makeApiRequestGo env url retries attempt (remaining + 1) token = none)) ∧
    (∀ status, env.resp attempt token = .http status → status ≠ 401 →
      ((status = 400 ∨ status = 404) → containsSub "phone".data url = true →
        makeApiRequestGo env url retries attempt (remaining + 1) token = none) ∧
      (status = 429 →
        makeApiRequestGo env url retries attempt (remaining + 1) token =
          makeApiRequestGo env url retries (attempt + 1) remaining token) ∧
      (status ≠ 429 → ¬ ((status = 400 ∨ status = 404) ∧ containsSub "phone".data url = true) →
        makeApiRequestGo env url retries attempt (remaining + 1) token =
          makeApiRequestGo env url retries (attempt + 1) remaining token)) ∧
    (env.resp attempt token = .exc →
      (attempt < retries - 1 →
        makeApiRequestGo env url retries attempt (remaining + 1) token =
          makeApiRequestGo env url retries (attempt + 1) remaining token) ∧
      (¬ attempt < retries - 1 →
        makeApiRequestGo env url retries attempt (remaining + 1) token = none)) ∧
    make_api_request env url retries token = makeApiRequestGo env url retries 0 retries token := by
  refine ⟨rfl, ?_, ?_, ?_, ?_, ?_, rfl⟩
  · intro j h
    simp [makeApiRequestGo, h]
  · intro h
    simp [makeApiRequestGo, h]
  · intro h
    constructor <;> intro h2 <;> simp [makeApiRequestGo, h, h2]
  · intro status h hne
    refine ⟨?_, ?_, ?_⟩
    · intro h4 hph
      have h429 : status ≠ 429 := by rcases h4 with rfl | rfl <;> decide
      simp [makeApiRequestGo, h, hne, h429, h4, hph]
    · intro h429
      subst h429
      simp [makeApiRequestGo, h, hne]
    · intro h429 hnp
      simp [makeApiRequestGo, h, hne, h429, hnp]
  · intro h
    constructor <;> intro h2 <;> simp [makeApiRequestGo, h, h2]

/-- Witness for C4: a 401 on the single allowed attempt returns null. -/
theorem api_request_retry_spec_witness :
    make_api_request c4AuthEnvFx "u".data 1 0 = none :=
  ((api_request_retry_spec c4AuthEnvFx "u".data 1 0 0 0).2.2.2.1 rfl).2 (by decide)

/-- Counterexample for C4: with a retry budget of 3, an HTTP 400 on a phone
endpoint whose next attempt would succeed is not retried at all — the claim
says any non-401 HTTP error is retried up to the budget, which would give
the parsed body 7, but the client returns null immediately. -/
theorem api_phone_400_no_retry_cex :
    c4EnvFx.resp 0 0 = .http 400 ∧ c4EnvFx.resp 1 0 = .ok 7 ∧
    make_api_request c4EnvFx c4PhoneUrlFx 3 0 = none := by decide

section DateRangeLemmas

theorem Date.lt_asymm' {a b : Date} (h : a < b) : ¬ b < a := by
  obtain ⟨ya, ma, da⟩ := a
  obtain ⟨yb, mb, db⟩ := b
  intro h2
  have h1 : Date.lt ⟨ya, ma, da⟩ ⟨yb, mb, db⟩ := h
  have h2' : Date.lt ⟨yb, mb, db⟩ ⟨ya, ma, da⟩ := h2
  simp only [Date.lt] at h1 h2'
  omega

/-- The first window of a non-empty chain starts at the interval start. -/
theorem windowChain_head {start stop : Date} {l : List (Date × Date)}
    (h : IsWindowChain start stop l) (hne : l ≠ []) :
    (l.map Prod.fst).head? = some start := by
  cases l with
  | nil => exact absurd rfl hne
  | cons p rest =>
    obtain ⟨a, b⟩ := p
    obtain ⟨ha, _⟩ := h
    simp [ha]

/-- The last window of a non-empty chain ends at the interval stop. -/
theorem windowChain_last {start stop : Date} {l : List (Date × Date)}
    (h : IsWindowChain start stop l) (hne : l ≠ []) :
    (l.map Prod.snd).getLast? = some stop := by
  induction l generalizing start with
  | nil => exact absurd rfl hne
  | cons p rest ih =>
    obtain ⟨a, b⟩ := p
    obtain ⟨ha, hrest⟩ := h
    cases rest with
    | nil =>
      have hb : b = stop := hrest
      simp [hb]
    | cons q rest2 =>
      have htail := ih hrest (by simp)
      simpa using htail

/-- The window loop, started below the end date, produces a non-empty chain
of windows tiling [cur, end), none spanning more than `m` months. -/
theorem generateDateRangesGo_spec (m : Nat) (hm : 1 ≤ m) (e : ValidDate) :
    ∀ (gap : Nat) (cur : ValidDate), gap = monthIndex e.val - monthIndex cur.val →
      cur.val < e.val →
      generateDateRangesGo m hm e cur ≠ [] ∧
      IsWindowChain cur.val e.val (generateDateRangesGo m hm e cur) ∧
      ∀ p ∈ generateDateRangesGo m hm e cur, ¬ addMonths p.1 m < p.2 := by
  intro gap
  induction gap using Nat.strong_induction_on with
  | _ gap ih =>
    intro cur hgap hcur
    rw [generateDateRangesGo, dif_pos hcur]
    by_cases hmin : e.val < (addMonthsV cur m).val
    · have hre : minDateV (addMonthsV cur m) e = e := by
        unfold minDateV
        rw [if_pos hmin]
      have htail : generateDateRangesGo m hm e e = [] := by
        rw [generateDateRangesGo, dif_neg (Date.lt_irr e.val)]
      rw [hre, htail]
      refine ⟨by simp, ⟨rfl, rfl⟩, ?_⟩
      intro p hp
      rw [List.mem_singleton] at hp
      subst hp
      exact Date.lt_asymm' hmin
    · have hre : minDateV (addMonthsV cur m) e = addMonthsV cur m := by
        unfold minDateV
        rw [if_neg hmin]
      rw [hre]
      have hmi : monthIndex (addMonthsV cur m).val = monthIndex cur.val + m :=
        monthIndex_addMonths cur.val m
      rcases Date.lt_or_eq_or_gt (addMonthsV cur m).val e.val with hlt | heq | hgt
      · have hle : monthIndex (addMonthsV cur m).val ≤ monthIndex e.val :=
          lt_monthIndex_le (addMonthsV cur m).property hlt
        have hcurle : monthIndex cur.val ≤ monthIndex e.val :=
          lt_monthIndex_le cur.property hcur
        have hgaplt : monthIndex e.val - monthIndex (addMonthsV cur m).val < gap := by omega
        obtain ⟨hne, hchain, hspan⟩ := ih _ (hgap ▸ hgaplt) (addMonthsV cur m) rfl hlt
        refine ⟨by simp, ⟨rfl, hchain⟩, ?_⟩
        intro p hp
        rcases List.mem_cons.mp hp with hp | hp
        · subst hp
          exact Date.lt_irr (addMonths cur.val m)
        · exact hspan p hp
      · have htail : generateDateRangesGo m hm e (addMonthsV cur m) = [] := by
          rw [generateDateRangesGo, dif_neg]
          rw [heq]
          exact Date.lt_irr e.val
        rw [htail]
        refine ⟨by simp, ⟨rfl, heq⟩, ?_⟩
        intro p hp
        rw [List.mem_singleton] at hp
        subst hp
        exact Date.lt_irr (addMonths cur.val m)
      · exact absurd hgt hmin

end DateRangeLemmas

/-- C9: for every start date strictly before the end date and every
months_per_range at least one, the date-range generator (a total function,
hence terminating) returns a non-empty list of windows such that the first
window starts at the start date, the last window ends at the end date, each
window's end is the next window's start (the windows tile [start, end) in
order with no gaps), and no window's end lies beyond its start plus
months_per_range months. -/
theorem date_ranges_spec (startD endD : ValidDate) (m : Nat) (hm : 1 ≤ m)
    (hlt : startD.val < endD.val) :
    generate_date_ranges startD endD m hm ≠ [] ∧
    IsWindowChain startD.val endD.val (generate_date_ranges startD endD m hm) ∧
    ((generate_date_ranges startD endD m hm).map Prod.fst).head? = some startD.val ∧
    ((generate_date_ranges startD endD m hm).map Prod.snd).getLast? = some endD.val ∧
    ∀ p ∈ generate_date_ranges startD endD m hm, ¬ addMonths p.1 m < p.2 := by
  obtain ⟨hne, hchain, hspan⟩ :=
    generateDateRangesGo_spec m hm endD (monthIndex endD.val - monthIndex startD.val) startD
      rfl hlt
  exact ⟨hne, hchain, windowChain_head hchain hne, windowChain_last hchain hne, hspan⟩

section UrlStringLemmas

/-- A quote-safe character passes through `quote_plus` unchanged. -/
theorem quotePlusChar_safe {c : Char} (h : alwaysSafe c = true) : quotePlusChar c = [c] := by
  unfold quotePlusChar
  have hsp : c ≠ ' ' := by
    intro hc
    rw [hc] at h
    exact absurd h (by decide)
  rw [if_neg hsp, if_pos h]

/-- `quote_plus` is the identity on all-safe strings. -/
theorem quotePlus_safe {s : Str} (h : AllSafe s) : quotePlus s = s := by
  induction s with
  | nil => rfl
  | cons c rest ih =>
    have hc := h c (List.mem_cons_self c rest)
    have hrest : AllSafe rest := fun x hx => h x (List.mem_cons_of_mem c hx)
    simp only [quotePlus, List.flatMap_cons] at *
    rw [quotePlusChar_safe hc, ih hrest]
    rfl

/-- A character that is not quote-safe does not occur in an all-safe
string. -/
theorem allSafe_not_mem {s : Str} (h : AllSafe s) {c : Char} (hc : alwaysSafe c = false) :
    c ∉ s := by
  intro hm
  rw [h c hm] at hc
  cases hc

/-- One-step equation of `splitOnChar` on a cons cell. -/
theorem splitOnChar_cons (sep c : Char) (rest : Str) :
    splitOnChar sep (c :: rest) =
      match splitOnChar sep rest with
      | [] => if c = sep then [[], []] else [[c]]
      | h :: t => if c = sep then [] :: h :: t else (c :: h) :: t := rfl

/-- One-step equation of `splitFirstChar` on a cons cell. -/
theorem splitFirstChar_cons (sep c : Char) (rest : Str) :
    splitFirstChar sep (c :: rest) =
      (if c = sep then some ([], rest)
       else
         match splitFirstChar sep rest with
         | none => none
         | some (a, b) => some (c :: a, b)) := rfl

/-- `splitOnChar` never returns the empty list. -/
theorem splitOnChar_ne_nil (sep : Char) (s : Str) : splitOnChar sep s ≠ [] := by
  cases s with
  | nil => simp [splitOnChar]
  | cons c rest =>
    rw [splitOnChar_cons]
    by_cases hc : c = sep <;> cases splitOnChar sep rest <;> simp [hc]

/-- Splitting on an absent separator yields the single piece. -/
theorem splitOnChar_no_sep {sep : Char} {s : Str} (h : sep ∉ s) : splitOnChar sep s = [s] := by
  induction s with
  | nil => rfl
  | cons c rest ih =>
    have hc : ¬ c = sep := fun hcc => h (by rw [hcc]; exact List.mem_cons_self sep rest)
    have hrest : sep ∉ rest := fun hm => h (List.mem_cons_of_mem c hm)
    rw [splitOnChar_cons, ih hrest]
    simp [hc]

/-- Splitting across the first separator occurrence peels off the prefix. -/
theorem splitOnChar_append {sep : Char} {a : Str} (h : sep ∉ a) (b : Str) :
    splitOnChar sep (a ++ sep :: b) = a :: splitOnChar sep b := by
  induction a with
  | nil =>
    rw [List.nil_append, splitOnChar_cons]
    cases hsp : splitOnChar sep b with
    | nil => exact absurd hsp (splitOnChar_ne_nil sep b)
    | cons h0 t0 => simp
  | cons c rest ih =>
    have hc : ¬ c = sep := fun hcc => h (by rw [hcc]; exact List.mem_cons_self sep rest)
    have hrest : sep ∉ rest := fun hm => h (List.mem_cons_of_mem c hm)
    show splitOnChar sep (c :: (rest ++ sep :: b)) = (c :: rest) :: splitOnChar sep b
    rw [splitOnChar_cons, ih hrest]
    simp [hc]

/-- `splitFirstChar` with the separator absent. -/
theorem splitFirstChar_no_sep {sep : Char} {s : Str} (h : sep ∉ s) :
    splitFirstChar sep s = none := by
  induction s with
  | nil => rfl
  | cons c rest ih =>
    have hc : ¬ c = sep := fun hcc => h (by rw [hcc]; exact List.mem_cons_self sep rest)
    have hrest : sep ∉ rest := fun hm => h (List.mem_cons_of_mem c hm)
    rw [splitFirstChar_cons, ih hrest]
    simp [hc]

/-- `splitFirstChar` at the first separator occurrence. -/
theorem splitFirstChar_append {sep : Char} {a : Str} (h : sep ∉ a) (b : Str) :
    splitFirstChar sep (a ++ sep :: b) = some (a, b) := by
  induction a with
  | nil => simp [splitFirstChar_cons]
  | cons c rest ih =>
    have hc : ¬ c = sep := fun hcc => h (by rw [hcc]; exact List.mem_cons_self sep rest)
    have hrest : sep ∉ rest := fun hm => h (List.mem_cons_of_mem c hm)
    show splitFirstChar sep (c :: (rest ++ sep :: b)) = some (c :: rest, b)
    rw [splitFirstChar_cons, ih hrest]
    simp [hc]

/-- What a successful `splitFirstChar` says about its input. -/
theorem splitFirstChar_eq {sep : Char} {s a b : Str}
    (h : splitFirstChar sep s = some (a, b)) : s = a ++ sep :: b ∧ sep ∉ a := by
  induction s generalizing a b with
  | nil => cases h
  | cons c rest ih =>
    rw [splitFirstChar_cons] at h
    by_cases hc : c = sep
    · rw [if_pos hc] at h
      injection h with h
      injection h with h1 h2
      subst h1
      subst h2
      exact ⟨by simp [hc], by simp⟩
    · rw [if_neg hc] at h
      cases hsp : splitFirstChar sep rest with
      | none => rw [hsp] at h; cases h
      | some ab =>
        obtain ⟨a0, b0⟩ := ab
        rw [hsp] at h
        injection h with h
        injection h with h1 h2
        subst h2
        obtain ⟨hres, hmem⟩ := ih hsp
        subst h1
        constructor
        · rw [hres]; rfl
        · intro hm
          rcases List.mem_cons.mp hm with hm | hm
          · exact hc hm.symm
          · exact hmem hm

/-- `unquote` is the identity on percent-free strings. -/
theorem unquote_no_pct {s : Str} (h : '%' ∉ s) : unquote s = s := by
  unfold unquote
  rw [splitOnChar_no_sep h]
  show s ++ unquoteBits [] [] = s
  simp [unquoteBits, utf8Decode, utf8DecodeAux]

/-- Replacing pluses by spaces does nothing to a plus-free string. -/
theorem map_plus_id {s : Str} (h : '+' ∉ s) :
    s.map (fun c => if c = '+' then ' ' else c) = s := by
  induction s with
  | nil => rfl
  | cons c rest ih =>
    have hc : ¬ c = '+' := fun hcc => h (by rw [hcc]; exact List.mem_cons_self _ rest)
    have hrest : '+' ∉ rest := fun hm => h (List.mem_cons_of_mem c hm)
    simp [hc, ih hrest]

/-- `unquote_plus` is the identity on all-safe strings. -/
theorem unquotePlus_safe {s : Str} (h : AllSafe s) : unquotePlus s = s := by
  unfold unquotePlus
  rw [map_plus_id (allSafe_not_mem h (by decide)), unquote_no_pct (allSafe_not_mem h (by decide))]

/-- A character missing from the name, different from the equals sign and
missing from the value is missing from the `name=value` field. -/
theorem not_mem_field {c : Char} {k v : Str} (hc1 : c ∉ k) (hc2 : ¬ c = '=') (hc3 : c ∉ v) :
    c ∉ k ++ '=' :: v := by
  intro hm
  rcases List.mem_append.mp hm with hm | hm
  · exact hc1 hm
  · rcases List.mem_cons.mp hm with hm | hm
    · exact hc2 hm
    · exact hc3 hm

/-- `parse_qsl` inverts the plain `k=v`-with-ampersands encoding of a pair
list whose names and values are non-empty and quote-safe. -/
theorem parseQsl_joinPairs {L : List (Str × Str)}
    (hL : ∀ kv ∈ L, SafeParam kv.1 ∧ SafeParam kv.2) : parseQsl (joinPairs L) = L := by
  induction L with
  | nil => rfl
  | cons kv rest ih =>
    obtain ⟨k, v⟩ := kv
    obtain ⟨⟨hk1, hk2⟩, hv1, hv2⟩ := hL (k, v) (List.mem_cons_self _ rest)
    have hkamp : '&' ∉ k := allSafe_not_mem hk2 (by decide)
    have hkeq : '=' ∉ k := allSafe_not_mem hk2 (by decide)
    have hvamp : '&' ∉ v := allSafe_not_mem hv2 (by decide)
    have hfieldamp : '&' ∉ k ++ '=' :: v := not_mem_field hkamp (by decide) hvamp
    have hfne : (k ++ '=' :: v).isEmpty = false := by cases k <;> simp
    have hvne : v.isEmpty = false := by
      cases v with
      | nil => exact absurd rfl hv1
      | cons a t => simp
    have hfield :
        (fun nv acc =>
          if nv.isEmpty then acc
          else
            match splitFirstChar '=' nv with
            | none => acc
            | some (n, w) =>
              if w.isEmpty then acc else (unquotePlus n, unquotePlus w) :: acc)
          (k ++ '=' :: v) rest = (k, v) :: rest := by
      simp only [hfne, Bool.false_eq_true, if_false, splitFirstChar_append hkeq v, hvne,
        unquotePlus_safe hk2, unquotePlus_safe hv2]
    cases rest with
    | nil =>
      show parseQsl (k ++ '=' :: v) = [(k, v)]
      unfold parseQsl
      rw [splitOnChar_no_sep hfieldamp]
      simpa using hfield
    | cons kv2 t =>
      have hrest : ∀ p ∈ kv2 :: t, SafeParam p.1 ∧ SafeParam p.2 :=
        fun p hp => hL p (List.mem_cons_of_mem _ hp)
      show parseQsl ((k ++ '=' :: v) ++ '&' :: joinPairs (kv2 :: t)) = (k, v) :: kv2 :: t
      unfold parseQsl
      rw [splitOnChar_append hfieldamp]
      rw [List.foldr_cons]
      have htail := ih hrest
      unfold parseQsl at htail
      rw [htail]
      simpa using hfield

end UrlStringLemmas

section QueryDictLemmas

theorem flatPairs_cons (p : Str × List Str) (rest : List (Str × List Str)) :
    flatPairs (p :: rest) = p.2.map (fun v => (p.1, v)) ++ flatPairs rest := by
  simp [flatPairs]

theorem qsAppend_cons (k0 : Str) (vs : List Str) (rest : List (Str × List Str)) (k v : Str) :
    qsAppend ((k0, vs) :: rest) k v =
      if k0 = k then (k0, vs ++ [v]) :: rest else (k0, vs) :: qsAppend rest k v := rfl

theorem dictSet_cons (k1 : Str) (vs1 : List Str) (rest : List (Str × List Str))
    (k0 : Str) (vs : List Str) :
    dictSet ((k1, vs1) :: rest) k0 vs =
      if k1 = k0 then (k1, vs) :: rest else (k1, vs1) :: dictSet rest k0 vs := rfl

/-- `urlencode(doseq=True)` is the plain `k=v`-with-ampersands join on
quote-safe content. -/
theorem urlencodeDoseq_safe {D : List (Str × List Str)}
    (hD : ∀ kv ∈ D, ∀ v ∈ kv.2, AllSafe kv.1 ∧ AllSafe v) :
    urlencodeDoseq D = joinPairs (flatPairs D) := by
  unfold urlencodeDoseq joinPairs flatPairs
  congr 1
  induction D with
  | nil => rfl
  | cons kv rest ih =>
    obtain ⟨k, vs⟩ := kv
    have hhead := hD (k, vs) (List.mem_cons_self _ rest)
    have hrest := fun p hp => hD p (List.mem_cons_of_mem _ hp)
    rw [List.flatMap_cons, List.flatMap_cons, List.map_append, List.map_map]
    rw [ih hrest]
    congr 1
    apply List.map_congr_left
    intro v hv
    obtain ⟨hk, hvsafe⟩ := hhead v hv
    simp [quotePlus_safe hk, quotePlus_safe hvsafe]

/-- Flattened membership from dict membership. -/
theorem mem_flatPairs_of_mem {D : List (Str × List Str)} {kv : Str × List Str}
    (h : kv ∈ D) {v : Str} (hv : v ∈ kv.2) : (kv.1, v) ∈ flatPairs D := by
  induction D with
  | nil => cases h
  | cons p rest ih =>
    rw [flatPairs_cons]
    rcases List.mem_cons.mp h with rfl | hm
    · exact List.mem_append_left _ (List.mem_map.mpr ⟨v, hv, rfl⟩)
    · exact List.mem_append_right _ (ih hm)

/-- Characters of the joined pair encoding are safe or separators. -/
theorem mem_joinPairs_chars {L : List (Str × Str)}
    (hL : ∀ kv ∈ L, SafeParam kv.1 ∧ SafeParam kv.2) {c : Char} (hc : c ∈ joinPairs L) :
    alwaysSafe c = true ∨ c = '&' ∨ c = '=' := by
  induction L with
  | nil => cases hc
  | cons kv rest ih =>
    obtain ⟨k, v⟩ := kv
    obtain ⟨⟨_, hk2⟩, _, hv2⟩ := hL (k, v) (List.mem_cons_self _ rest)
    have hrest := fun p hp => hL p (List.mem_cons_of_mem _ hp)
    have hfield : ∀ x ∈ k ++ '=' :: v, alwaysSafe x = true ∨ x = '&' ∨ x = '=' := by
      intro x hx
      rcases List.mem_append.mp hx with hx | hx
      · exact Or.inl (hk2 x hx)
      · rcases List.mem_cons.mp hx with rfl | hx
        · exact Or.inr (Or.inr rfl)
        · exact Or.inl (hv2 x hx)
    cases rest with
    | nil => exact hfield c hc
    | cons kv2 t =>
      have hjp : joinPairs ((k, v) :: kv2 :: t) =
          (k ++ '=' :: v) ++ '&' :: joinPairs (kv2 :: t) := rfl
      rw [hjp] at hc
      rcases List.mem_append.mp hc with hm | hm
      · exact hfield c hm
      · rcases List.mem_cons.mp hm with rfl | hm
        · exact Or.inr (Or.inl rfl)
        · exact ih hrest hm

/-- The key of a flattened pair is a key of the dict. -/
theorem mem_flatPairs_key {kv : Str × Str} {D : List (Str × List Str)}
    (h : kv ∈ flatPairs D) : kv.1 ∈ D.map Prod.fst := by
  induction D with
  | nil => cases h
  | cons p rest ih =>
    rw [flatPairs_cons] at h
    rcases List.mem_append.mp h with hm | hm
    · obtain ⟨v, _, hkv⟩ := List.mem_map.mp hm
      rw [List.map_cons, ← hkv]
      exact List.mem_cons_self _ _
    · rw [List.map_cons]
      exact List.mem_cons_of_mem _ (ih hm)

/-- Membership in the flattening after a `parse_qs` accumulation step. -/
theorem mem_flatPairs_qsAppend {kv : Str × Str} {D : List (Str × List Str)} {k v : Str} :
    kv ∈ flatPairs (qsAppend D k v) ↔ kv ∈ flatPairs D ∨ kv = (k, v) := by
  induction D with
  | nil => simp [qsAppend, flatPairs]
  | cons p rest ih =>
    obtain ⟨k0, vs⟩ := p
    by_cases hk : k0 = k
    · subst hk
      rw [qsAppend_cons, if_pos rfl, flatPairs_cons, flatPairs_cons, List.map_append]
      simp only [List.append_assoc, List.mem_append, List.map_cons, List.map_nil,
        List.mem_singleton]
      tauto
    · rw [qsAppend_cons, if_neg hk, flatPairs_cons, flatPairs_cons]
      simp only [List.mem_append, ih]
      tauto

/-- Membership in the flattening of a `parse_qs` fold. -/
theorem mem_flatPairs_foldl (rest : List (Str × Str)) :
    ∀ (D : List (Str × List Str)) (kv : Str × Str),
      kv ∈ flatPairs (rest.foldl (fun d p => qsAppend d p.1 p.2) D) ↔
        kv ∈ flatPairs D ∨ kv ∈ rest := by
  induction rest with
  | nil => intro D kv; simp
  | cons p t ih =>
    intro D kv
    rw [List.foldl_cons, ih, mem_flatPairs_qsAppend]
    simp [List.mem_cons]
    tauto

/-- The flattening of `parse_qs` holds exactly the `parse_qsl` pairs. -/
theorem mem_flatPairs_parseQs {q : Str} {kv : Str × Str} :
    kv ∈ flatPairs (parseQs q) ↔ kv ∈ parseQsl q := by
  unfold parseQs
  rw [mem_flatPairs_foldl]
  simp [flatPairs]

/-- A key of a `parse_qs` accumulation step is an old key or the new one. -/
theorem mem_keys_qsAppend {x : Str} {D : List (Str × List Str)} {k v : Str}
    (h : x ∈ (qsAppend D k v).map Prod.fst) : x ∈ D.map Prod.fst ∨ x = k := by
  induction D with
  | nil => simp [qsAppend] at h; exact Or.inr h
  | cons p rest ih =>
    obtain ⟨k0, vs⟩ := p
    by_cases hk : k0 = k
    · rw [qsAppend_cons, if_pos hk] at h
      simp only [List.map_cons] at h ⊢
      exact Or.inl h
    · rw [qsAppend_cons, if_neg hk] at h
      simp only [List.map_cons, List.mem_cons] at h ⊢
      rcases h with h | h
      · exact Or.inl (Or.inl h)
      · rcases ih h with h2 | h2
        · exact Or.inl (Or.inr h2)
        · exact Or.inr h2

/-- `parse_qs` accumulation keeps the keys duplicate-free. -/
theorem nodup_keys_qsAppend {D : List (Str × List Str)} {k v : Str}
    (h : (D.map Prod.fst).Nodup) : ((qsAppend D k v).map Prod.fst).Nodup := by
  induction D with
  | nil => simp [qsAppend]
  | cons p rest ih =>
    obtain ⟨k0, vs⟩ := p
    rw [List.map_cons, List.nodup_cons] at h
    by_cases hk : k0 = k
    · rw [qsAppend_cons, if_pos hk]
      rw [List.map_cons, List.nodup_cons]
      exact h
    · rw [qsAppend_cons, if_neg hk]
      rw [List.map_cons, List.nodup_cons]
      refine ⟨?_, ih h.2⟩
      intro hm
      rcases mem_keys_qsAppend hm with hm | hm
      · exact h.1 hm
      · exact hk hm

/-- The keys of a `parse_qs` result are duplicate-free. -/
theorem nodup_keys_parseQs (q : Str) : ((parseQs q).map Prod.fst).Nodup := by
  unfold parseQs
  have aux : ∀ (L : List (Str × Str)) (D : List (Str × List Str)),
      (D.map Prod.fst).Nodup →
      ((L.foldl (fun d p => qsAppend d p.1 p.2) D).map Prod.fst).Nodup := by
    intro L
    induction L with
    | nil => intro D h; exact h
    | cons p t ih => intro D h; exact ih _ (nodup_keys_qsAppend h)
  exact aux _ [] (by simp)

/-- Pairs after a dict assignment come from the old dict or the new value. -/
theorem mem_flatPairs_dictSet {kv : Str × Str} {D : List (Str × List Str)} {k0 : Str}
    {vs : List Str} (h : kv ∈ flatPairs (dictSet D k0 vs)) :
    kv ∈ flatPairs D ∨ (kv.1 = k0 ∧ kv.2 ∈ vs) := by
  induction D with
  | nil =>
    rw [show dictSet [] k0 vs = [(k0, vs)] from rfl, flatPairs_cons] at h
    rcases List.mem_append.mp h with hm | hm
    · obtain ⟨v, hv, hkv⟩ := List.mem_map.mp hm
      exact Or.inr (by rw [← hkv]; exact ⟨rfl, hv⟩)
    · cases hm
  | cons p rest ih =>
    obtain ⟨k1, vs1⟩ := p
    by_cases hk : k1 = k0
    · rw [dictSet_cons, if_pos hk, flatPairs_cons] at h
      rcases List.mem_append.mp h with hm | hm
      · obtain ⟨v, hv, hkv⟩ := List.mem_map.mp hm
        exact Or.inr (by rw [← hkv, hk]; exact ⟨rfl, hv⟩)
      · exact Or.inl (by rw [flatPairs_cons]; exact List.mem_append_right _ hm)
    · rw [dictSet_cons, if_neg hk, flatPairs_cons] at h
      rcases List.mem_append.mp h with hm | hm
      · exact Or.inl (by rw [flatPairs_cons]; exact List.mem_append_left _ hm)
      · rcases ih hm with h2 | h2
        · exact Or.inl (by rw [flatPairs_cons]; exact List.mem_append_right _ h2)
        · exact Or.inr h2

/-- The assigned pair is present after a dict assignment. -/
theorem dictSet_mem_self (D : List (Str × List Str)) (k0 p : Str) :
    (k0, p) ∈ flatPairs (dictSet D k0 [p]) := by
  induction D with
  | nil => simp [dictSet, flatPairs]
  | cons q rest ih =>
    obtain ⟨k1, vs1⟩ := q
    by_cases hk : k1 = k0
    · rw [dictSet_cons, if_pos hk, flatPairs_cons]
      apply List.mem_append_left
      rw [hk]
      simp
    · rw [dictSet_cons, if_neg hk, flatPairs_cons]
      exact List.mem_append_right _ ih

/-- With duplicate-free keys, the assigned key holds exactly the assigned
value after a dict assignment. -/
theorem dictSet_value_unique {D : List (Str × List Str)} {k0 p : Str}
    (h : (D.map Prod.fst).Nodup) :
    ∀ v, (k0, v) ∈ flatPairs (dictSet D k0 [p]) → v = p := by
  induction D with
  | nil =>
    intro v hv
    simp [dictSet, flatPairs] at hv
    exact hv
  | cons q rest ih =>
    obtain ⟨k1, vs1⟩ := q
    rw [List.map_cons, List.nodup_cons] at h
    intro v hv
    by_cases hk : k1 = k0
    · rw [dictSet_cons, if_pos hk, flatPairs_cons] at hv
      rcases List.mem_append.mp hv with hm | hm
      · obtain ⟨w, hw, hkw⟩ := List.mem_map.mp hm
        rw [List.mem_singleton] at hw
        injection hkw with h1 h2
        rw [← h2, hw]
      · have := mem_flatPairs_key hm
        rw [hk] at h
        exact absurd this h.1
    · rw [dictSet_cons, if_neg hk, flatPairs_cons] at hv
      rcases List.mem_append.mp hv with hm | hm
      · obtain ⟨w, _, hkw⟩ := List.mem_map.mp hm
        injection hkw with h1 h2
        exact absurd h1 hk
      · exact ih h.2 v hm

/-- A pair under a different key survives a dict assignment. -/
theorem dictSet_preserve {kv : Str × Str} {D : List (Str × List Str)} {k0 : Str}
    {vs : List Str} (h : kv ∈ flatPairs D) (hne : kv.1 ≠ k0) :
    kv ∈ flatPairs (dictSet D k0 vs) := by
  induction D with
  | nil => cases h
  | cons q rest ih =>
    obtain ⟨k1, vs1⟩ := q
    rw [flatPairs_cons] at h
    by_cases hk : k1 = k0
    · rw [dictSet_cons, if_pos hk, flatPairs_cons]
      rcases List.mem_append.mp h with hm | hm
      · obtain ⟨w, _, hkw⟩ := List.mem_map.mp hm
        rw [← hkw] at hne
        exact absurd hk hne
      · exact List.mem_append_right _ hm
    · rw [dictSet_cons, if_neg hk, flatPairs_cons]
      rcases List.mem_append.mp h with hm | hm
      · exact List.mem_append_left _ hm
      · exact List.mem_append_right _ (ih hm)

end QueryDictLemmas

section UrlRoundTrip

/-- `takeNetloc` consumes exactly the prefix free of its stop characters,
provided the remainder is empty or starts with a stop character. -/
theorem takeNetloc_exact {n : Str} (h : ∀ c ∈ n, ¬ c = '/' ∧ ¬ c = '?' ∧ ¬ c = '#')
    (rest : Str)
    (hrest : rest = [] ∨ ∃ c rest2, rest = c :: rest2 ∧ (c = '/' ∨ c = '?' ∨ c = '#')) :
    takeNetloc (n ++ rest) = (n, rest) := by
  induction n with
  | nil =>
    rcases hrest with rfl | ⟨c, rest2, rfl, hc⟩
    · rfl
    · show takeNetloc (c :: rest2) = ([], c :: rest2)
      unfold takeNetloc
      rw [if_pos hc]
  | cons c n2 ih =>
    obtain ⟨h1, h2, h3⟩ := h c (List.mem_cons_self _ _)
    have hn2 : ∀ x ∈ n2, ¬ x = '/' ∧ ¬ x = '?' ∧ ¬ x = '#' :=
      fun x hx => h x (List.mem_cons_of_mem _ hx)
    show takeNetloc (c :: (n2 ++ rest)) = (c :: n2, rest)
    unfold takeNetloc
    rw [if_neg (by tauto), ih hn2]

/-- `splitParams` does nothing to a semicolon-free path. -/
theorem splitParams_no_semi {path : Str} (h : ';' ∉ path) : splitParams path = (path, []) := by
  unfold splitParams
  split
  · cases hsp : splitFirstChar '/' path.reverse with
    | none => rfl
    | some ab =>
      obtain ⟨revSeg, revPre⟩ := ab
      obtain ⟨hdec, _⟩ := splitFirstChar_eq hsp
      have hsemi : ';' ∉ revSeg.reverse := by
        intro hm
        apply h
        have hm2 : ';' ∈ revSeg := by simpa using hm
        have hm3 : ';' ∈ path.reverse := by
          rw [hdec]
          exact List.mem_append_left _ hm2
        simpa using hm3
      simp only [splitFirstChar_no_sep hsemi]
  · simp only [splitFirstChar_no_sep h]

/-- Parsing a URL rebuilt from wellformed components recovers them. -/
theorem urlparse_roundtrip (scheme netloc path q : Str)
    (hs : SchemeOk scheme) (hn : NetlocOk netloc) (hp : PathOk path)
    (hq : ∀ c ∈ q, ¬ c = '#' ∧ ¬ c = '?') :
    urlparseFull (urlunparse ⟨scheme, netloc, path, [], q, []⟩) =
      ⟨scheme, netloc, path, [], q, []⟩ := by
  obtain ⟨hs1, hs2, hs3, hs4⟩ := hs
  obtain ⟨hn1, hn2⟩ := hn
  obtain ⟨hp1, hp2⟩ := hp
  have hsc : ∀ c ∈ scheme, schemeChar c = true := List.all_eq_true.mp hs3
  have hscolon : ':' ∉ scheme := fun hm => absurd (hsc ':' hm) (by decide)
  have hnE : netloc.isEmpty = false := by
    cases netloc with
    | nil => exact absurd rfl hn1
    | cons a t => rfl
  have hsE : scheme.isEmpty = false := by
    cases scheme with
    | nil => exact absurd rfl hs1
    | cons a t => rfl
  have hurlp : (if !path.isEmpty && path.head? != some '/' then '/' :: path else path)
      = path := by
    rcases hp1 with rfl | hh
    · rfl
    · rw [if_neg]
      simp [hh]
  have hunparse : urlunparse ⟨scheme, netloc, path, [], q, []⟩ =
      scheme ++ ':' :: '/' :: '/' :: (netloc ++ (path ++ (if q.isEmpty then [] else '?' :: q)))
      := by
    unfold urlunparse
    simp only [List.isEmpty_nil, if_pos rfl, hnE, Bool.not_false, Bool.true_or, if_true, hurlp,
      hsE, Bool.not_eq_true']
    by_cases hqE : q.isEmpty
    · simp [hqE]
    · have hqE' : q.isEmpty = false := by
        cases hx : q.isEmpty
        · rfl
        · exact absurd hx hqE
      simp [hqE']
  have hsplitScheme : splitScheme
      (scheme ++ ':' :: '/' :: '/' :: (netloc ++ (path ++ (if q.isEmpty then [] else '?' :: q))))
      = (scheme, '/' :: '/' :: (netloc ++ (path ++ (if q.isEmpty then [] else '?' :: q)))) := by
    unfold splitScheme
    rw [splitFirstChar_append hscolon]
    cases scheme with
    | nil => exact absurd rfl hs1
    | cons c cs =>
      have hca : c.isAlpha = true := by simpa using hs2
      simp only [hca, hs3, Bool.and_self, if_pos]
      rw [show (c :: cs).map Char.toLower = c :: cs from hs4]
  have hstop : (path ++ (if q.isEmpty then [] else '?' :: q)) = [] ∨
      ∃ c rest2, (path ++ (if q.isEmpty then [] else '?' :: q)) = c :: rest2 ∧
        (c = '/' ∨ c = '?' ∨ c = '#') := by
    rcases hp1 with rfl | hh
    · by_cases hqE : q.isEmpty
      · simp [hqE]

      · have hqE' : q.isEmpty = false := by
          cases hx : q.isEmpty
          · rfl
          · exact absurd hx hqE
        refine Or.inr ⟨'?', q, ?_, Or.inr (Or.inl rfl)⟩
        simp [hqE']
    · cases path with
      | nil => cases hh
      | cons c t =>
        have hc : c = '/' := by
          injection hh
        refine Or.inr ⟨c, t ++ (if q.isEmpty then [] else '?' :: q), rfl, Or.inl hc⟩
  have hnet : splitNetloc
      ('/' :: '/' :: (netloc ++ (path ++ (if q.isEmpty then [] else '?' :: q))))
      = (netloc, path ++ (if q.isEmpty then [] else '?' :: q)) := by
    show takeNetloc (netloc ++ (path ++ (if q.isEmpty then [] else '?' :: q))) = _
    exact takeNetloc_exact hn2 _ hstop
  have hnohash : '#' ∉ path ++ (if q.isEmpty then [] else '?' :: q) := by
    intro hm
    rcases List.mem_append.mp hm with hm | hm
    · exact (hp2 '#' hm).2.1 rfl
    · by_cases hqE : q.isEmpty
      · rw [if_pos hqE] at hm
        cases hm
      · rw [if_neg hqE] at hm
        rcases List.mem_cons.mp hm with hm | hm
        · cases hm
        · exact (hq '#' hm).1 rfl
  have hnosemi : ';' ∉ path := fun hm => (hp2 ';' hm).2.2 rfl
  have hnoq : '?' ∉ path := fun hm => (hp2 '?' hm).1 rfl
  rw [hunparse]
  unfold urlparseFull
  rw [hsplitScheme]
  simp only
  rw [hnet]
  simp only
  rw [splitFirstChar_no_sep hnohash]
  simp only
  by_cases hqE : q.isEmpty
  · have hqnil : q = [] := by
      cases q with
      | nil => rfl
      | cons a t => cases hqE
    rw [if_pos hqE]
    rw [List.append_nil]
    rw [splitFirstChar_no_sep hnoq]
    simp only
    rw [splitParams_no_semi hnosemi]
    rw [hqnil]
  · rw [if_neg hqE]
    rw [splitFirstChar_append hnoq]
    simp only
    rw [splitParams_no_semi hnosemi]

/-- With a passcode present and wellformed components, the query of the
passcode-augmented URL parses to the flattening of the original query dict
with `pwd` assigned to the passcode. -/
theorem add_passcode_parse (scheme netloc path : Str) (L : List (Str × Str)) (p : Str)
    (meeting : Meeting)
    (hs : SchemeOk scheme) (hn : NetlocOk netloc) (hp : PathOk path)
    (hL : ∀ kv ∈ L, SafeParam kv.1 ∧ SafeParam kv.2) (hpw : SafeParam p)
    (hpc : meeting.recording_play_passcode = some p) :
    parseQsl (urlparseFull (add_passcode_to_url
        (urlunparse ⟨scheme, netloc, path, [], joinPairs L, []⟩) meeting)).query =
      flatPairs (dictSet (parseQs (joinPairs L)) "pwd".data [p]) := by
  have hpE : p.isEmpty = false := by
    cases hp0 : p with
    | nil => exact absurd hp0 hpw.1
    | cons a t => rfl
  have hq1 : ∀ c ∈ joinPairs L, ¬ c = '#' ∧ ¬ c = '?' := by
    intro c hc
    rcases mem_joinPairs_chars hL hc with hcs | rfl | rfl
    · constructor
      · intro hcc
        rw [hcc] at hcs
        exact absurd hcs (by decide)
      · intro hcc
        rw [hcc] at hcs
        exact absurd hcs (by decide)
    · exact ⟨by decide, by decide⟩
    · exact ⟨by decide, by decide⟩
  have hflat : ∀ kv ∈ flatPairs (dictSet (parseQs (joinPairs L)) "pwd".data [p]),
      SafeParam kv.1 ∧ SafeParam kv.2 := by
    intro kv hkv
    rcases mem_flatPairs_dictSet hkv with hm | ⟨hk, hv⟩
    · exact hL kv (by rwa [mem_flatPairs_parseQs, parseQsl_joinPairs hL] at hm)
    · rw [List.mem_singleton] at hv
      obtain ⟨k1, v1⟩ := kv
      simp only at hk hv ⊢
      rw [hk, hv]
      exact ⟨⟨by decide, by decide⟩, hpw⟩
  have hD : ∀ kv ∈ dictSet (parseQs (joinPairs L)) "pwd".data [p], ∀ v ∈ kv.2,
      AllSafe kv.1 ∧ AllSafe v := by
    intro kv hkv v hv
    have := hflat (kv.1, v) (mem_flatPairs_of_mem hkv hv)
    exact ⟨this.1.2, this.2.2⟩
  have henc : urlencodeDoseq (dictSet (parseQs (joinPairs L)) "pwd".data [p]) =
      joinPairs (flatPairs (dictSet (parseQs (joinPairs L)) "pwd".data [p])) :=
    urlencodeDoseq_safe hD
  have hq2 : ∀ c ∈ urlencodeDoseq (dictSet (parseQs (joinPairs L)) "pwd".data [p]),
      ¬ c = '#' ∧ ¬ c = '?' := by
    rw [henc]
    intro c hc
    rcases mem_joinPairs_chars hflat hc with hcs | rfl | rfl
    · constructor
      · intro hcc
        rw [hcc] at hcs
        exact absurd hcs (by decide)
      · intro hcc
        rw [hcc] at hcs
        exact absurd hcs (by decide)
    · exact ⟨by decide, by decide⟩
    · exact ⟨by decide, by decide⟩
  unfold add_passcode_to_url
  rw [hpc]
  simp only [hpE, Bool.false_eq_true, if_false]
  rw [urlparse_roundtrip scheme netloc path (joinPairs L) ⟨hs.1, hs.2.1, hs.2.2.1, hs.2.2.2⟩
    hn hp hq1]
  simp only
  rw [urlparse_roundtrip scheme netloc path _ ⟨hs.1, hs.2.1, hs.2.2.1, hs.2.2.2⟩ hn hp hq2]
  simp only
  rw [henc]
  exact parseQsl_joinPairs hflat

end UrlRoundTrip

/-- Witness for C9: a concrete two-month interval with one-month windows. -/
theorem date_ranges_spec_witness :
    1 ≤ 1 ∧ (⟨2020, 1, 5⟩ : Date) < ⟨2020, 3, 1⟩ ∧
    generate_date_ranges ⟨⟨2020, 1, 5⟩, by decide⟩ ⟨⟨2020, 3, 1⟩, by decide⟩ 1
      (Nat.le_refl 1) ≠ [] :=
  ⟨Nat.le_refl 1, by decide,
    (date_ranges_spec ⟨⟨2020, 1, 5⟩, by decide⟩ ⟨⟨2020, 3, 1⟩, by decide⟩ 1 (Nat.le_refl 1)
      (by decide)).1⟩

/-- C6 amended: for every URL built from wellformed components whose query
is a sequence of parameters with non-empty quote-safe names and values, and
every meeting object carrying a non-empty quote-safe
`recording_play_passcode`, the augmented URL's query contains the parameter
`pwd` with the passcode as its value, and preserves every pre-existing
query parameter other than `pwd` with its value.  (Parameters with empty
values are dropped and a pre-existing `pwd` is replaced, see the
counterexample.) -/
theorem passcode_augmentation_spec (scheme netloc path : Str) (L : List (Str × Str))
    (p : Str) (meeting : Meeting)
    (hs : SchemeOk scheme) (hn : NetlocOk netloc) (hp : PathOk path)
    (hL : ∀ kv ∈ L, SafeParam kv.1 ∧ SafeParam kv.2) (hpw : SafeParam p)
    (hpc : meeting.recording_play_passcode = some p) :
    ("pwd".data, p) ∈ parseQsl (urlparseFull (add_passcode_to_url
        (urlunparse ⟨scheme, netloc, path, [], joinPairs L, []⟩) meeting)).query ∧
    ∀ kv ∈ L, kv.1 ≠ "pwd".data →
      kv ∈ parseQsl (urlparseFull (add_passcode_to_url
        (urlunparse ⟨scheme, netloc, path, [], joinPairs L, []⟩) meeting)).query := by
  rw [add_passcode_parse scheme netloc path L p meeting hs hn hp hL hpw hpc]
  constructor
  · exact dictSet_mem_self _ _ _
  · intro kv hkv hne
    apply dictSet_preserve _ hne
    rw [mem_flatPairs_parseQs, parseQsl_joinPairs hL]
    exact hkv

/-- Witness for C6: the spec's concrete instance — URL `https://x/y?z=1`
and passcode `abc123`: the result carries `pwd=abc123` and keeps `z=1`. -/
theorem passcode_augmentation_spec_witness :
    ("pwd".data, "abc123".data) ∈ parseQsl (urlparseFull (add_passcode_to_url
        (urlunparse ⟨"https".data, "x".data, "/y".data, [],
          joinPairs [("z".data, "1".data)], []⟩)
        { recording_play_passcode := some "abc123".data })).query ∧
    ("z".data, "1".data) ∈ parseQsl (urlparseFull (add_passcode_to_url
        (urlunparse ⟨"https".data, "x".data, "/y".data, [],
          joinPairs [("z".data, "1".data)], []⟩)
        { recording_play_passcode := some "abc123".data })).query := by
  have h := passcode_augmentation_spec "https".data "x".data "/y".data
    [("z".data, "1".data)] "abc123".data { recording_play_passcode := some "abc123".data }
    (by decide) (by decide) (by decide) (by decide) (by decide) rfl
  exact ⟨h.1, h.2 ("z".data, "1".data) (by decide) (by decide)⟩

/-- Counterexample for C6: the claim's "preserves every pre-existing query
parameter with its value" fails: a parameter with an empty value
(`?z=`) is dropped entirely from the augmented URL (parse_qs defaults
discard blank values), and a pre-existing `pwd` parameter is overwritten
rather than preserved. -/
theorem passcode_preservation_cex :
    add_passcode_to_url "https://x/y?z=".data
        { recording_play_passcode := some "abc123".data } =
      "https://x/y?pwd=abc123".data ∧
    containsSub "z".data "https://x/y?z=".data = true ∧
    containsSub "z".data (add_passcode_to_url "https://x/y?z=".data
        { recording_play_passcode := some "abc123".data }) = false ∧
    add_passcode_to_url "https://x/y?pwd=old&z=1".data
        { recording_play_passcode := some "abc123".data } =
      "https://x/y?pwd=abc123&z=1".data ∧
    containsSub "pwd=old".data (add_passcode_to_url "https://x/y?pwd=old&z=1".data
        { recording_play_passcode := some "abc123".data }) = false := by decide

/-- C10: with the passcode key absent or mapped to the empty string, the
URL is returned unchanged (the same string); and with a passcode present,
the `pwd` query parameter of the result holds exactly the passcode — a
pre-existing `pwd` is replaced in place, never duplicated. -/
theorem passcode_absent_and_replace (url : Str) (meeting : Meeting)
    (scheme netloc path : Str) (L : List (Str × Str)) (p : Str) (m2 : Meeting) :
    (meeting.recording_play_passcode = none → add_passcode_to_url url meeting = url) ∧
    (meeting.recording_play_passcode = some [] → add_passcode_to_url url meeting = url) ∧
    (SchemeOk scheme → NetlocOk netloc → PathOk path →
      (∀ kv ∈ L, SafeParam kv.1 ∧ SafeParam kv.2) → SafeParam p →
      m2.recording_play_passcode = some p →
      ("pwd".data, p) ∈ parseQsl (urlparseFull (add_passcode_to_url
          (urlunparse ⟨scheme, netloc, path, [], joinPairs L, []⟩) m2)).query ∧
      ∀ v, ("pwd".data, v) ∈ parseQsl (urlparseFull (add_passcode_to_url
          (urlunparse ⟨scheme, netloc, path, [], joinPairs L, []⟩) m2)).query →
        v = p) := by
  refine ⟨?_, ?_, ?_⟩
  · intro h
    unfold add_passcode_to_url
    rw [h]
  · intro h
    unfold add_passcode_to_url
    rw [h]
    rfl
  · intro hs hn hp hL hpw hpc
    rw [add_passcode_parse scheme netloc path L p m2 hs hn hp hL hpw hpc]
    exact ⟨dictSet_mem_self _ _ _,
      fun v hv => dictSet_value_unique (nodup_keys_parseQs _) v hv⟩

/-- Witness for C10: an absent passcode leaves `https://x/y?z=1` untouched,
and with passcode `abc123` a URL whose query already says `pwd=old` ends up
carrying `pwd=abc123`. -/
theorem passcode_absent_and_replace_witness :
    add_passcode_to_url "https://x/y?z=1".data { recording_play_passcode := none } =
      "https://x/y?z=1".data ∧
    ("pwd".data, "abc123".data) ∈ parseQsl (urlparseFull (add_passcode_to_url
        (urlunparse ⟨"https".data, "x".data, "/y".data, [],
          joinPairs [("pwd".data, "old".data)], []⟩)
        { recording_play_passcode := some "abc123".data })).query :=
  ⟨(passcode_absent_and_replace "https://x/y?z=1".data
      { recording_play_passcode := none } "https".data "x".data "/y".data
      [("pwd".data, "old".data)] "abc123".data
      { recording_play_passcode := some "abc123".data }).1 rfl,
   ((passcode_absent_and_replace "https://x/y?z=1".data
      { recording_play_passcode := none } "https".data "x".data "/y".data
      [("pwd".data, "old".data)] "abc123".data
      { recording_play_passcode := some "abc123".data }).2.2 (by decide) (by decide)
      (by decide) (by decide) (by decide) rfl).1⟩

end ZoomBak
